import Mathlib

/-!
# Double-hashing dictionary (`src/main.c`)

A shallow embedding of the hash-table engine of `main.c` and the properties
of its `insertEntry`, `searchEntry` and `deleteEntry`.

Conventions of the embedding.

* A C string is the list of its bytes before the terminating NUL
  (`CStr = List Nat`, each byte in `1..255`); `strcmp(a, b) == 0` is equality
  of the two lists.
* `unsigned long` is 64 bits wide and plain `char` is signed (the LP64 ABI of
  x86-64); arithmetic on `unsigned long` is taken `% 2^64`.
* A `char*` field is an `Option CStr`, `none` being `NULL`.
* `DictionaryEntry* hashTable` is a function from the index to the entry;
  only the indices below `TABLE_SIZE` belong to the array.
* A `while` loop is a function recursive on a fuel argument which tests the
  loop condition of the source itself; running out of fuel is `none`.
  The operations pass enough fuel (`insertEntry_returns`,
  `searchEntry_returns`, `deleteEntry_returns`).
* `buildHashTable` is its loop over the records `(word, translation)` of the
  file; opening the file and splitting its lines are left out.  The `int`
  counters of the statistics are integers kept in the 32-bit range by
  `wrapInt`.
* `strcmp` on a `NULL` word and `appendTranslation` on a `NULL` translation
  are undefined in C; here a `NULL` word matches no key and a `NULL`
  translation stays `NULL`.  No table built by the operations has a `FILLED`
  slot with a `NULL` field (`TableInv`, `reachable_inv`).
-/

namespace HashDict

/-! ## Data model -/

/-- The constant `#define TABLE_SIZE 16001`. -/
def TABLE_SIZE : Nat := 16001

/-- Modulus of `unsigned long` arithmetic. -/
def ULONG_MOD : Nat := 2 ^ 64

/-- A C string: its bytes before the terminator. -/
abbrev CStr := List Nat

/-- The type `typedef enum { EMPTY, FILLED, DELETED } SlotStatus;` -/
inductive SlotStatus where
  | EMPTY
  | FILLED
  | DELETED
  deriving DecidableEq, Repr

/-- The type `typedef struct { char* word; char* translation; SlotStatus status; } DictionaryEntry;` -/
structure DictionaryEntry where
  word : Option CStr
  translation : Option CStr
  status : SlotStatus
  deriving DecidableEq, Repr

/-- The slot array, by index. -/
abbrev Table := Nat → DictionaryEntry

/-- Assignment `hashTable[index] = e`. -/
def setSlot (hashTable : Table) (index : Nat) (e : DictionaryEntry) : Table :=
  fun i => if i = index then e else hashTable i

/-! ## Hash pair -/

/-- Conversion of `int c`, read from a signed `char`, to `unsigned long`:
bytes from 128 on are negative and wrap around. -/
def charToULong (b : Nat) : Nat :=
  if b < 128 then b else ULONG_MOD - 256 + b

/-- The loop of `hash1`: `hash = ((hash << 5) + hash) ^ c`. -/
def hash1Loop : CStr → Nat → Nat
  | [], hash => hash
  | c :: str, hash =>
    hash1Loop str ((((hash <<< 5) % ULONG_MOD + hash) % ULONG_MOD) ^^^ charToULong c)

/-- The function `unsigned long hash1(char *str)`. -/
def hash1 (str : CStr) : Nat := hash1Loop str 5381

/-- The loop of `hash2`: `hash = c + (hash << 6) + (hash << 16) - hash`. -/
def hash2Loop : CStr → Nat → Nat
  | [], hash => hash
  | c :: str, hash =>
    hash2Loop str
      ((charToULong c + (hash <<< 6) % ULONG_MOD + (hash <<< 16) % ULONG_MOD
        + (ULONG_MOD - hash % ULONG_MOD)) % ULONG_MOD)

/-- The function `unsigned long hash2(char *str)`: `(hash % (TABLE_SIZE - 1)) + 1`. -/
def hash2 (str : CStr) : Nat := hash2Loop str 0 % (TABLE_SIZE - 1) + 1

/-- The probe sequence of the specification,
`idx_i = (hash1(key) mod N + i * hash2(key)) mod N`. -/
def probeIndex (word : CStr) (i : Nat) : Nat :=
  (hash1 word % TABLE_SIZE + i * hash2 word) % TABLE_SIZE

/-! ## Operations -/

/-- The table of `initializeHashTable`: every slot `{NULL, NULL, EMPTY}`. -/
def initializeHashTable : Table :=
  fun _ => { word := none, translation := none, status := .EMPTY }

/-- The function `appendTranslation`: `existing`, then `";"`, then `new`. -/
def appendTranslation (existingTranslation newTranslation : CStr) : CStr :=
  existingTranslation ++ [59] ++ newTranslation

/-- The test `hashTable[index].status == FILLED && strcmp(hashTable[index].word, word) == 0`. -/
def slotMatches (e : DictionaryEntry) (word : CStr) : Prop :=
  e.status = .FILLED ∧ e.word = some word

instance (e : DictionaryEntry) (word : CStr) : Decidable (slotMatches e word) := by
  unfold slotMatches; infer_instance

/-- The entry `insertEntry` writes for a new key (lines 153-155):
`{strdup(word), strdup(translation), FILLED}`. -/
def newEntry (word translation : CStr) : DictionaryEntry :=
  { word := some word, translation := some translation, status := .FILLED }

/-- The entry `insertEntry` leaves in a slot whose key it found (lines 126-128):
the translation is replaced by `appendTranslation(old, translation)`. -/
def mergedEntry (e : DictionaryEntry) (translation : CStr) : DictionaryEntry :=
  { e with
    translation := e.translation.map (fun existing => appendTranslation existing translation) }

/-- The entry `deleteEntry` leaves in the slot it frees (lines 203-207):
`{NULL, NULL, DELETED}`. -/
def deletedEntry : DictionaryEntry :=
  { word := none, translation := none, status := .DELETED }

/-- What an operation hands back: the `int` it returns, `*probeCount`, and the
table as the call leaves it. -/
structure OpResult where
  ret : Nat
  probeCount : Nat
  hashTable : Table

/-- How the `while` loop of `insertEntry` ends. -/
inductive InsertWalk where
  /-- The `return 1` inside the loop, with the table and `*probeCount`. -/
  | updated (hashTable : Table) (probeCount : Nat)
  /-- The loop was left (by `break` or by its condition) with these locals. -/
  | left (index probes : Nat) (firstDeletedIndex : Option Nat)

/-- The `while (probes < TABLE_SIZE)` loop of `insertEntry` (lines 119-141).
`firstDeletedIndex` is `none` for `-1`. -/
def insertLoop (hashTable : Table) (word translation : CStr) (step : Nat) :
    Nat → Nat → Nat → Option Nat → Option InsertWalk
  | 0, _, _, _ => none
  | fuel + 1, index, probes, firstDeletedIndex =>
    if probes < TABLE_SIZE then
      if (hashTable index).status = .EMPTY then
        some (.left index probes firstDeletedIndex)
      else if slotMatches (hashTable index) word then
        some (.updated
          (setSlot hashTable index (mergedEntry (hashTable index) translation))
          probes)
      else
        insertLoop hashTable word translation step fuel
          ((index + step) % TABLE_SIZE) (probes + 1)
          (if (hashTable index).status = .DELETED ∧ firstDeletedIndex = none
            then some index else firstDeletedIndex)
    else
      some (.left index probes firstDeletedIndex)

/-- The loop of `insertEntry` from its initial locals. -/
def insertWalk (hashTable : Table) (word translation : CStr) : Option InsertWalk :=
  insertLoop hashTable word translation (hash2 word) TABLE_SIZE
    (hash1 word % TABLE_SIZE) 1 none

/-- The code of `insertEntry` after the loop (lines 143-158). -/
def insertFinish (hashTable : Table) (word translation : CStr) : InsertWalk → OpResult
  | .updated hashTable1 probeCount => ⟨1, probeCount, hashTable1⟩
  | .left index probes firstDeletedIndex =>
    match firstDeletedIndex with
    | some d =>
      ⟨2, 3, setSlot hashTable d (newEntry word translation)⟩
    | none =>
      if probes ≥ TABLE_SIZE then ⟨0, probes, hashTable⟩
      else
        ⟨2, probes, setSlot hashTable index (newEntry word translation)⟩

/-- The function `int insertEntry(hashTable, word, translation, &probeCount)`:
returns 1 (updated), 2 (inserted) or 0 (failed). -/
def insertEntry (hashTable : Table) (word translation : CStr) : Option OpResult :=
  (insertWalk hashTable word translation).map (insertFinish hashTable word translation)

/-- How the `while` loop of `searchEntry` and of `deleteEntry` ends. -/
inductive LookupWalk where
  /-- The `return 1` inside the loop: index of the matching slot, `probes`. -/
  | hit (index probes : Nat)
  /-- The loop was left (by `break` or by its condition) with this `probes`. -/
  | left (probes : Nat)
  deriving DecidableEq, Repr

/-- The `while (probes <= maxProbesToTry)` loop of `searchEntry` (lines 167-183). -/
def searchLoop (hashTable : Table) (word : CStr) (step maxProbesToTry : Nat) :
    Nat → Nat → Nat → Option LookupWalk
  | 0, _, _ => none
  | fuel + 1, index, probes =>
    if probes ≤ maxProbesToTry then
      if (hashTable index).status = .EMPTY then
        some (.left probes)
      else if slotMatches (hashTable index) word then
        some (.hit index probes)
      else
        searchLoop hashTable word step maxProbesToTry fuel
          ((index + step) % TABLE_SIZE) (probes + 1)
    else
      some (.left probes)

/-- What `searchEntry` hands back: the `int` it returns, `*translation`
(`none` when it is not written) and `*probeCount`. -/
structure SearchResult where
  ret : Nat
  translation : Option CStr
  probeCount : Nat
  deriving DecidableEq, Repr

/-- The code of `searchEntry` at its two exits (lines 175-177 and 185-186):
`*translation` is written on a hit only, `*probeCount = probes - 1` on a miss. -/
def searchFinish (hashTable : Table) : LookupWalk → SearchResult
  | .hit index probes => ⟨1, (hashTable index).translation, probes⟩
  | .left probes => ⟨0, none, probes - 1⟩

/-- The function `int searchEntry(hashTable, word, &translation, &probeCount)`:
returns 1 (found) or 0 (not found, `*probeCount = probes - 1`). -/
def searchEntry (hashTable : Table) (word : CStr) : Option SearchResult :=
  (searchLoop hashTable word (hash2 word) 10 TABLE_SIZE (hash1 word % TABLE_SIZE) 1).map
    (searchFinish hashTable)

/-- The `while (probes <= maxProbesToTry)` loop of `deleteEntry` (lines 195-216). -/
def deleteLoop (hashTable : Table) (word : CStr) (step maxProbesToTry : Nat) :
    Nat → Nat → Nat → Option LookupWalk
  | 0, _, _ => none
  | fuel + 1, index, probes =>
    if probes ≤ maxProbesToTry then
      if (hashTable index).status = .EMPTY then
        some (.left probes)
      else if slotMatches (hashTable index) word then
        some (.hit index probes)
      else
        deleteLoop hashTable word step maxProbesToTry fuel
          ((index + step) % TABLE_SIZE) (probes + 1)
    else
      some (.left probes)

/-- The code of `deleteEntry` at its two exits (lines 203-210 and 218-219):
on a hit the slot becomes `{NULL, NULL, DELETED}`, on a miss
`*probeCount = probes - 1`. -/
def deleteFinish (hashTable : Table) : LookupWalk → OpResult
  | .hit index probes =>
    ⟨1, probes, setSlot hashTable index deletedEntry⟩
  | .left probes => ⟨0, probes - 1, hashTable⟩

/-- The function `int deleteEntry(hashTable, word, &probeCount)`: returns 1 (deleted, the
slot becomes `{NULL, NULL, DELETED}`) or 0 (not found, `*probeCount = probes - 1`). -/
def deleteEntry (hashTable : Table) (word : CStr) : Option OpResult :=
  (deleteLoop hashTable word (hash2 word) 10 TABLE_SIZE (hash1 word % TABLE_SIZE) 1).map
    (deleteFinish hashTable)

/-! ## Sample data -/

/-- The key `cat`. -/
def cat : CStr := [99, 97, 116]
/-- The key `dog`. -/
def dog : CStr := [100, 111, 103]
/-- The value `gato`. -/
def gato : CStr := [103, 97, 116, 111]
/-- The value `perro`. -/
def perro : CStr := [112, 101, 114, 114, 111]
/-- The value `felino`. -/
def felino : CStr := [102, 101, 108, 105, 110, 111]

/-! ## Walking a probe sequence -/

/-- The walk passes over the slot at depth `i` (counted from 0) of the probe
sequence of `word`: it is not `EMPTY` and does not hold `word`. -/
def Passes (hashTable : Table) (word : CStr) (i : Nat) : Prop :=
  (hashTable (probeIndex word i)).status ≠ .EMPTY ∧
    ¬ slotMatches (hashTable (probeIndex word i)) word

instance (hashTable : Table) (word : CStr) (i : Nat) : Decidable (Passes hashTable word i) := by
  unfold Passes; infer_instance

/-- Depth `m` is where a walk of at most `cap` slots stops: every slot before
it is passed over, and `m` is the first that is not, or `m = cap`. -/
def FirstStop (hashTable : Table) (word : CStr) (cap m : Nat) : Prop :=
  m ≤ cap ∧ (∀ j, j < m → Passes hashTable word j) ∧ (m < cap → ¬ Passes hashTable word m)

/-- The value of `firstDeletedIndex` when the walk of `insertEntry` reaches
depth `m`: the index of the first `DELETED` slot among the depths below `m`. -/
def firstDeletedUpTo (hashTable : Table) (word : CStr) : Nat → Option Nat
  | 0 => none
  | m + 1 =>
    if (hashTable (probeIndex word m)).status = .DELETED ∧
        firstDeletedUpTo hashTable word m = none
      then some (probeIndex word m) else firstDeletedUpTo hashTable word m

/-- What the loop of `searchEntry` and `deleteEntry` yields when it stops at depth `m`. -/
def lookupStop (hashTable : Table) (word : CStr) (cap m : Nat) : LookupWalk :=
  if m < cap then
    if (hashTable (probeIndex word m)).status = .EMPTY then .left (m + 1)
    else .hit (probeIndex word m) (m + 1)
  else .left (m + 1)

/-- What the loop of `insertEntry` yields when it stops at depth `m`. -/
def insertStop (hashTable : Table) (word translation : CStr) (m : Nat) : InsertWalk :=
  if m < TABLE_SIZE - 1 then
    if (hashTable (probeIndex word m)).status = .EMPTY then
      .left (probeIndex word m) (m + 1) (firstDeletedUpTo hashTable word m)
    else
      .updated
        (setSlot hashTable (probeIndex word m)
          (mergedEntry (hashTable (probeIndex word m)) translation))
        (m + 1)
  else .left (probeIndex word m) (m + 1) (firstDeletedUpTo hashTable word m)

/-! ## Reachable tables and their invariant -/

/-- The tables the program can hold: the table of `initializeHashTable` and
what `insertEntry` and `deleteEntry` make of such a table. -/
inductive Reachable : Table → Prop where
  | init : Reachable initializeHashTable
  | insert {hashTable : Table} (word translation : CStr) {r : OpResult} :
      Reachable hashTable → insertEntry hashTable word translation = some r →
      Reachable r.hashTable
  | delete {hashTable : Table} (word : CStr) {r : OpResult} :
      Reachable hashTable → deleteEntry hashTable word = some r →
      Reachable r.hashTable

/-- The invariant of the reachable tables: a `FILLED` slot has a word and a
translation; it lies on the probe sequence of its word at a depth the walk of
`insertEntry` examines, behind slots that are not `EMPTY`; and no two slots
hold the same word. -/
structure TableInv (hashTable : Table) : Prop where
  payload : ∀ i, (hashTable i).status = .FILLED →
    (∃ w, (hashTable i).word = some w) ∧ (∃ v, (hashTable i).translation = some v)
  placement : ∀ i w, slotMatches (hashTable i) w →
    ∃ d, d < TABLE_SIZE - 1 ∧ probeIndex w d = i ∧
      ∀ j, j < d → (hashTable (probeIndex w j)).status ≠ .EMPTY
  unique : ∀ i j w, slotMatches (hashTable i) w → slotMatches (hashTable j) w → i = j

/-! ## Sample tables -/

/-- The table after `insertEntry(cat, gato)` on the initial table. -/
def catTable : Table :=
  setSlot initializeHashTable (probeIndex cat 0) (newEntry cat gato)

/-- The table after `insertEntry(dog, perro)` on `catTable`. -/
def catDogTable : Table :=
  setSlot catTable (probeIndex dog 0) (newEntry dog perro)

/-- Slot `i` is `FILLED` with `word` and `translation`, and it is the only
slot holding `word`. -/
def HoldsOnly (hashTable : Table) (word : CStr) (i : Nat) (translation : CStr) : Prop :=
  hashTable i = newEntry word translation ∧ ∀ j, slotMatches (hashTable j) word → j = i

/-- A table with a tombstone: `catTable` after `deleteEntry(cat)`. -/
def tombstoneTable : Table :=
  setSlot catTable (probeIndex cat 0) deletedEntry

/-- A table whose slot at probe depth 12 of `cat` holds `cat`, every other
slot being a tombstone. -/
def deepTable : Table :=
  fun i => if i = probeIndex cat 11 then newEntry cat gato else deletedEntry

/-- A table that is not saturated yet on which `insertEntry(cat, _)` fails:
the slot at depth 16001 of the probe sequence of `cat` is `EMPTY`, every other
slot is `FILLED` with a two-byte key of its own. -/
def almostFullTable : Table :=
  fun i =>
    if i = probeIndex cat 16000 then { word := none, translation := none, status := .EMPTY }
    else newEntry [i % 255 + 1, i / 255 + 1] [120]

/-! ## The slots a walk examines -/

/-- The loop of `searchEntry` (lines 167-183) together with the list of the
indices at which it reads `hashTable[index]`, in the order of the reads. -/
def searchLoopTraced (hashTable : Table) (word : CStr) (step maxProbesToTry : Nat) :
    Nat → Nat → Nat → Option (LookupWalk × List Nat)
  | 0, _, _ => none
  | fuel + 1, index, probes =>
    if probes ≤ maxProbesToTry then
      if (hashTable index).status = .EMPTY then
        some (.left probes, [index])
      else if slotMatches (hashTable index) word then
        some (.hit index probes, [index])
      else
        (searchLoopTraced hashTable word step maxProbesToTry fuel
          ((index + step) % TABLE_SIZE) (probes + 1)).map
          (fun wv => (wv.1, index :: wv.2))
    else
      some (.left probes, [])

/-- The loop of `deleteEntry` (lines 195-216) together with the list of the
indices at which it reads `hashTable[index]`, in the order of the reads. -/
def deleteLoopTraced (hashTable : Table) (word : CStr) (step maxProbesToTry : Nat) :
    Nat → Nat → Nat → Option (LookupWalk × List Nat)
  | 0, _, _ => none
  | fuel + 1, index, probes =>
    if probes ≤ maxProbesToTry then
      if (hashTable index).status = .EMPTY then
        some (.left probes, [index])
      else if slotMatches (hashTable index) word then
        some (.hit index probes, [index])
      else
        (deleteLoopTraced hashTable word step maxProbesToTry fuel
          ((index + step) % TABLE_SIZE) (probes + 1)).map
          (fun wv => (wv.1, index :: wv.2))
    else
      some (.left probes, [])

/-- The indices of the slots `searchEntry` examines. -/
def searchVisited (hashTable : Table) (word : CStr) : Option (List Nat) :=
  (searchLoopTraced hashTable word (hash2 word) 10 TABLE_SIZE
    (hash1 word % TABLE_SIZE) 1).map Prod.snd

/-- The indices of the slots `deleteEntry` examines. -/
def deleteVisited (hashTable : Table) (word : CStr) : Option (List Nat) :=
  (deleteLoopTraced hashTable word (hash2 word) 10 TABLE_SIZE
    (hash1 word % TABLE_SIZE) 1).map Prod.snd

/-- How many of the slots at the indices `visited` are not `EMPTY`. -/
def nonEmptyCount (hashTable : Table) (visited : List Nat) : Nat :=
  (visited.filter (fun i => decide ((hashTable i).status ≠ .EMPTY))).length

/-! ## Bulk load and its statistics -/

/-- The largest value of an `int`, `INT_MAX = 2^31 - 1`. -/
def INT_MAX : Int := 2147483647

/-- The value an `int` takes when it is assigned the arithmetic result `x`:
`x` itself when `-2^31 ≤ x ≤ INT_MAX`, and `x` reduced modulo `2^32` into that
range otherwise (signed overflow, undefined in C, wraps around in the
two's-complement arithmetic of the x86-64 build). -/
def wrapInt (x : Int) : Int :=
  (x + 2147483648) % 4294967296 - 2147483648

/-- The counters of `main` that `buildHashTable` updates through its pointer
arguments, all of type `int`: `totalProbes`, `maxProbes`, `objectCount`, and
the array `probeDistribution[101]` by index. -/
structure LoadStats where
  totalProbes : Int
  maxProbes : Int
  objectCount : Int
  probeDistribution : Nat → Int

/-- The counters as `main` initialises them: all zero. -/
def zeroStats : LoadStats :=
  { totalProbes := 0, maxProbes := 0, objectCount := 0, probeDistribution := fun _ => 0 }

/-- The statistics update of `buildHashTable` after one `insertEntry` call
that returned `result` and `probeCount` (lines 274-287): `(*objectCount)++`,
`(*totalProbes) += probeCount`, the maximum, and
`probeDistribution[probeCount]++`, each sum stored in an `int`. -/
def updateStats (s : LoadStats) (result probeCount : Nat) : LoadStats :=
  if result ≠ 0 then
    { objectCount := wrapInt (s.objectCount + 1)
      totalProbes := wrapInt (s.totalProbes + probeCount)
      maxProbes := if (probeCount : Int) > s.maxProbes then probeCount else s.maxProbes
      probeDistribution :=
        if probeCount ≤ 100 then
          fun v =>
            if v = probeCount then wrapInt (s.probeDistribution v + 1)
            else s.probeDistribution v
        else s.probeDistribution }
  else s

/-- The loop of `buildHashTable` (lines 250-288) over the records
`(word, translation)` of the file, one for each line that is not skipped:
`insertEntry`, then the statistics update. -/
def buildHashTable : Table → List (CStr × CStr) → LoadStats → Option (Table × LoadStats)
  | hashTable, [], s => some (hashTable, s)
  | hashTable, (word, translation) :: rest, s =>
    match insertEntry hashTable word translation with
    | none => none
    | some r => buildHashTable r.hashTable rest (updateStats s r.ret r.probeCount)

/-- The successive `insertEntry` calls of `buildHashTable`: the table they
leave and, for each call in order, the pair of the `result` it returned and
the `probeCount` it reported. -/
def bulkCalls : Table → List (CStr × CStr) → Option (Table × List (Nat × Nat))
  | hashTable, [] => some (hashTable, [])
  | hashTable, (word, translation) :: rest =>
    match insertEntry hashTable word translation with
    | none => none
    | some r =>
      (bulkCalls r.hashTable rest).map
        (fun p => (p.1, (r.ret, r.probeCount) :: p.2))

/-- The probe counts of the calls that did not return 0, in order. -/
def countedProbes (reports : List (Nat × Nat)) : List Nat :=
  (reports.filter (fun rep => decide (rep.1 ≠ 0))).map Prod.snd

/-- A dictionary of three records: `cat`/`gato`, `dog`/`perro`, `cat`/`felino`. -/
def sampleRecords : List (CStr × CStr) :=
  [(cat, gato), (dog, perro), (cat, felino)]

/-- The key of record `i` of `manyRecords`: three printable bytes. -/
def recordKey (i : Nat) : CStr :=
  [i % 90 + 33, (i / 90) % 90 + 33, i / 8100 + 33]

/-- A dictionary of 16002 records with pairwise different keys, each with the
translation `x`. -/
def manyRecords : List (CStr × CStr) :=
  (List.range 16002).map (fun i => (recordKey i, [120]))

/-- Some slot of the array is `FILLED` with `word`. -/
def Holds (hashTable : Table) (word : CStr) : Prop :=
  ∃ i, i < TABLE_SIZE ∧ slotMatches (hashTable i) word

/-! ## The averages -/

/-- What a phase does for its average number of probes: it evaluates
`(double)dividend / divisor` and prints the quotient, or it evaluates and
prints nothing. -/
inductive Average where
  | quotient (dividend divisor : Int)
  | notPrinted
  deriving DecidableEq, Repr

/-- The average of `displayHashStatistics` (line 294):
`(double)totalProbes / objectCount`, evaluated on every call. -/
def displayHashStatistics (totalProbes objectCount : Int) : Average :=
  .quotient totalProbes objectCount

/-- The average at the end of `processUserOperations` (lines 379-382):
`(double)totalUserProbes / totalUserOps`, under `if (totalUserOps > 0)`. -/
def userOperationsAverage (totalUserProbes totalUserOps : Int) : Average :=
  if totalUserOps > 0 then .quotient totalUserProbes totalUserOps else .notPrinted

/-! ## The slots the walk of `insertEntry` examines -/

/-- The loop of `insertEntry` (lines 119-141) together with the list of the
indices at which it reads `hashTable[index]`, in the order of the reads. -/
def insertLoopTraced (hashTable : Table) (word translation : CStr) (step : Nat) :
    Nat → Nat → Nat → Option Nat → Option (InsertWalk × List Nat)
  | 0, _, _, _ => none
  | fuel + 1, index, probes, firstDeletedIndex =>
    if probes < TABLE_SIZE then
      if (hashTable index).status = .EMPTY then
        some (.left index probes firstDeletedIndex, [index])
      else if slotMatches (hashTable index) word then
        some (.updated
          (setSlot hashTable index (mergedEntry (hashTable index) translation))
          probes, [index])
      else
        (insertLoopTraced hashTable word translation step fuel
          ((index + step) % TABLE_SIZE) (probes + 1)
          (if (hashTable index).status = .DELETED ∧ firstDeletedIndex = none
            then some index else firstDeletedIndex)).map
          (fun wv => (wv.1, index :: wv.2))
    else
      some (.left index probes firstDeletedIndex, [])

/-- The indices of the slots the loop of `insertEntry` examines. -/
def insertVisited (hashTable : Table) (word translation : CStr) : Option (List Nat) :=
  (insertLoopTraced hashTable word translation (hash2 word) TABLE_SIZE
    (hash1 word % TABLE_SIZE) 1 none).map Prod.snd

/-- The value of `index` after `i` rounds of `index = (index + step) % TABLE_SIZE`
from `index = hash1(word) % TABLE_SIZE`, with `step = hash2(word)`. -/
def walkIndex (word : CStr) : Nat → Nat
  | 0 => hash1 word % TABLE_SIZE
  | i + 1 => (walkIndex word i + hash2 word) % TABLE_SIZE

/-- The key `epec`, whose probe sequence starts at the slot where that of
`cat` starts. -/
def epec : CStr := [101, 112, 101, 99]

/-- The tables the program can come to from `hashTable`: that table and what
`insertEntry` and `deleteEntry` make of such a table. -/
inductive ReachableFrom (hashTable : Table) : Table → Prop where
  | start : ReachableFrom hashTable hashTable
  | insert {hashTable1 : Table} (word translation : CStr) {r : OpResult} :
      ReachableFrom hashTable hashTable1 →
      insertEntry hashTable1 word translation = some r →
      ReachableFrom hashTable r.hashTable
  | delete {hashTable1 : Table} (word : CStr) {r : OpResult} :
      ReachableFrom hashTable hashTable1 →
      deleteEntry hashTable1 word = some r →
      ReachableFrom hashTable r.hashTable

/-! ## Arithmetic of the probe sequence -/

theorem table_size_prime : Nat.Prime TABLE_SIZE := by
  unfold TABLE_SIZE; norm_num

theorem hash2_pos (word : CStr) : 1 ≤ hash2 word := by
  unfold hash2; omega

theorem hash2_lt (word : CStr) : hash2 word < TABLE_SIZE := by
  unfold hash2 TABLE_SIZE
  have := Nat.mod_lt (hash2Loop word 0) (show 16001 - 1 > 0 by norm_num)
  omega

theorem probeIndex_lt (word : CStr) (i : Nat) : probeIndex word i < TABLE_SIZE :=
  Nat.mod_lt _ (by unfold TABLE_SIZE; norm_num)

theorem probeIndex_zero (word : CStr) : probeIndex word 0 = hash1 word % TABLE_SIZE := by
  unfold probeIndex; simp

theorem probeIndex_succ (word : CStr) (i : Nat) :
    (probeIndex word i + hash2 word) % TABLE_SIZE = probeIndex word (i + 1) := by
  unfold probeIndex
  rw [Nat.succ_mul]
  generalize i * hash2 word = x
  simp only [TABLE_SIZE]
  omega

theorem probeIndex_inj (word : CStr) {i j : Nat} (hi : i < TABLE_SIZE) (hj : j < TABLE_SIZE)
    (h : probeIndex word i = probeIndex word j) : i = j := by
  unfold probeIndex at h
  have h1 : i * hash2 word ≡ j * hash2 word [MOD TABLE_SIZE] :=
    Nat.ModEq.add_left_cancel' (hash1 word % TABLE_SIZE) h
  have hcop : Nat.gcd TABLE_SIZE (hash2 word) = 1 :=
    (Nat.Prime.coprime_iff_not_dvd table_size_prime).2
      (Nat.not_dvd_of_pos_of_lt (hash2_pos word) (hash2_lt word))
  exact Nat.ModEq.eq_of_lt_of_lt (Nat.ModEq.cancel_right_of_coprime hcop h1) hi hj

/-! ## The loops stop at the first slot that is not passed over -/

theorem firstStop_unique {hashTable : Table} {word : CStr} {cap m m' : Nat}
    (h : FirstStop hashTable word cap m) (h' : FirstStop hashTable word cap m') : m = m' := by
  obtain ⟨hm, hpass, hstop⟩ := h
  obtain ⟨hm', hpass', hstop'⟩ := h'
  rcases Nat.lt_trichotomy m m' with hlt | heq | hgt
  · exact absurd (hpass' m hlt) (hstop (by omega))
  · exact heq
  · exact absurd (hpass m' hgt) (hstop' (by omega))

theorem exists_firstStop (hashTable : Table) (word : CStr) (cap : Nat) :
    ∃ m, FirstStop hashTable word cap m := by
  induction cap with
  | zero => exact ⟨0, Nat.le_refl 0, fun j hj => absurd hj (Nat.not_lt_zero j), fun h => absurd h (Nat.lt_irrefl 0)⟩
  | succ cap ih =>
    obtain ⟨m, hm, hpass, hstop⟩ := ih
    by_cases hlt : m < cap
    · exact ⟨m, by omega, hpass, fun _ => hstop hlt⟩
    · have hmc : m = cap := by omega
      subst hmc
      by_cases hp : Passes hashTable word m
      · refine ⟨m + 1, Nat.le_refl _, ?_, fun h => absurd h (Nat.lt_irrefl _)⟩
        intro j hj
        rcases Nat.lt_succ_iff_lt_or_eq.1 hj with h1 | h1
        · exact hpass j h1
        · exact h1 ▸ hp
      · exact ⟨m, by omega, hpass, fun _ => hp⟩

theorem searchLoop_eq_stop (hashTable : Table) (word : CStr) (cap m : Nat)
    (h : FirstStop hashTable word cap m) :
    ∀ fuel i, i ≤ m → cap < fuel + i →
      searchLoop hashTable word (hash2 word) cap fuel (probeIndex word i) (i + 1)
        = some (lookupStop hashTable word cap m) := by
  obtain ⟨hm, hpass, hstop⟩ := h
  intro fuel
  induction fuel with
  | zero => intro i hi hf; omega
  | succ fuel ih =>
    intro i hi hf
    unfold searchLoop
    rcases Nat.eq_or_lt_of_le hi with heq | hlt
    · subst heq
      by_cases hc : i < cap
      · have hnp := hstop hc
        unfold Passes at hnp
        have h1 : i + 1 ≤ cap := hc
        by_cases he : (hashTable (probeIndex word i)).status = .EMPTY
        · simp [lookupStop, hc, h1, he]
        · have hmatch : slotMatches (hashTable (probeIndex word i)) word := by
            by_contra hcon; exact hnp ⟨he, hcon⟩
          simp [lookupStop, hc, h1, he, hmatch]
      · have h1 : ¬ (i + 1 ≤ cap) := by omega
        simp [lookupStop, hc, h1]
    · have hp := hpass i hlt
      unfold Passes at hp
      have h1 : i + 1 ≤ cap := by omega
      simp only [h1, if_true, hp.1, hp.2, if_false]
      rw [probeIndex_succ]
      exact ih (i + 1) hlt (by omega)

theorem deleteLoop_eq_searchLoop (hashTable : Table) (word : CStr) (step cap : Nat) :
    ∀ fuel index probes,
      deleteLoop hashTable word step cap fuel index probes
        = searchLoop hashTable word step cap fuel index probes := by
  intro fuel
  induction fuel with
  | zero => intro index probes; rfl
  | succ fuel ih =>
    intro index probes
    unfold deleteLoop searchLoop
    rw [ih]

theorem firstDeletedUpTo_succ (hashTable : Table) (word : CStr) (m : Nat) :
    firstDeletedUpTo hashTable word (m + 1) =
      if (hashTable (probeIndex word m)).status = .DELETED ∧
          firstDeletedUpTo hashTable word m = none
        then some (probeIndex word m) else firstDeletedUpTo hashTable word m := rfl

theorem insertLoop_eq_stop (hashTable : Table) (word translation : CStr) (m : Nat)
    (h : FirstStop hashTable word (TABLE_SIZE - 1) m) :
    ∀ fuel i, i ≤ m → TABLE_SIZE - 1 < fuel + i →
      insertLoop hashTable word translation (hash2 word) fuel (probeIndex word i) (i + 1)
          (firstDeletedUpTo hashTable word i)
        = some (insertStop hashTable word translation m) := by
  obtain ⟨hm, hpass, hstop⟩ := h
  intro fuel
  induction fuel with
  | zero => intro i hi hf; omega
  | succ fuel ih =>
    intro i hi hf
    unfold insertLoop
    rcases Nat.eq_or_lt_of_le hi with heq | hlt
    · subst heq
      by_cases hc : i < TABLE_SIZE - 1
      · have hnp := hstop hc
        unfold Passes at hnp
        have h1 : i + 1 < TABLE_SIZE := by omega
        by_cases he : (hashTable (probeIndex word i)).status = .EMPTY
        · simp [insertStop, hc, h1, he]
        · have hmatch : slotMatches (hashTable (probeIndex word i)) word := by
            by_contra hcon; exact hnp ⟨he, hcon⟩
          simp [insertStop, hc, h1, he, hmatch]
      · have h1 : ¬ (i + 1 < TABLE_SIZE) := by omega
        simp [insertStop, hc, h1]
    · have hp := hpass i hlt
      unfold Passes at hp
      have h1 : i + 1 < TABLE_SIZE := by omega
      simp only [h1, if_true, hp.1, hp.2, if_false]
      rw [probeIndex_succ, ← firstDeletedUpTo_succ]
      exact ih (i + 1) hlt (by omega)

/-! ## The operations in terms of the stopping depth -/

theorem searchEntry_of_firstStop {hashTable : Table} {word : CStr} {m : Nat}
    (h : FirstStop hashTable word 10 m) :
    searchEntry hashTable word
      = some (searchFinish hashTable (lookupStop hashTable word 10 m)) := by
  unfold searchEntry
  rw [← probeIndex_zero]
  rw [searchLoop_eq_stop hashTable word 10 m h TABLE_SIZE 0 (Nat.zero_le m)
    (by unfold TABLE_SIZE; omega)]
  rfl

theorem deleteEntry_of_firstStop {hashTable : Table} {word : CStr} {m : Nat}
    (h : FirstStop hashTable word 10 m) :
    deleteEntry hashTable word
      = some (deleteFinish hashTable (lookupStop hashTable word 10 m)) := by
  unfold deleteEntry
  rw [deleteLoop_eq_searchLoop, ← probeIndex_zero]
  rw [searchLoop_eq_stop hashTable word 10 m h TABLE_SIZE 0 (Nat.zero_le m)
    (by unfold TABLE_SIZE; omega)]
  rfl

theorem insertEntry_of_firstStop {hashTable : Table} {word : CStr} (translation : CStr)
    {m : Nat} (h : FirstStop hashTable word (TABLE_SIZE - 1) m) :
    insertEntry hashTable word translation
      = some (insertFinish hashTable word translation
          (insertStop hashTable word translation m)) := by
  unfold insertEntry insertWalk
  rw [← probeIndex_zero]
  have h0 := insertLoop_eq_stop hashTable word translation m h TABLE_SIZE 0 (Nat.zero_le m)
    (by unfold TABLE_SIZE; omega)
  simp only [firstDeletedUpTo, Nat.zero_add] at h0
  rw [h0]
  rfl

theorem searchEntry_returns (hashTable : Table) (word : CStr) :
    ∃ r, searchEntry hashTable word = some r := by
  obtain ⟨m, hm⟩ := exists_firstStop hashTable word 10
  exact ⟨_, searchEntry_of_firstStop hm⟩

theorem deleteEntry_returns (hashTable : Table) (word : CStr) :
    ∃ r, deleteEntry hashTable word = some r := by
  obtain ⟨m, hm⟩ := exists_firstStop hashTable word 10
  exact ⟨_, deleteEntry_of_firstStop hm⟩

theorem insertEntry_returns (hashTable : Table) (word translation : CStr) :
    ∃ r, insertEntry hashTable word translation = some r := by
  obtain ⟨m, hm⟩ := exists_firstStop hashTable word (TABLE_SIZE - 1)
  exact ⟨_, insertEntry_of_firstStop translation hm⟩

/-! ## The first tombstone of a walk -/

theorem firstDeletedUpTo_eq_none_iff (hashTable : Table) (word : CStr) (m : Nat) :
    firstDeletedUpTo hashTable word m = none ↔
      ∀ j, j < m → (hashTable (probeIndex word j)).status ≠ .DELETED := by
  induction m with
  | zero => simp [firstDeletedUpTo]
  | succ m ih =>
    rw [firstDeletedUpTo_succ]
    constructor
    · intro h j hj
      by_cases hd : (hashTable (probeIndex word m)).status = .DELETED
      · by_cases hn : firstDeletedUpTo hashTable word m = none
        · simp [hd, hn] at h
        · simp [hd, hn] at h
      · have hn : firstDeletedUpTo hashTable word m = none := by simpa [hd] using h
        rcases Nat.lt_succ_iff_lt_or_eq.1 hj with h1 | h1
        · exact ih.1 hn j h1
        · exact h1 ▸ hd
    · intro h
      have hd : (hashTable (probeIndex word m)).status ≠ .DELETED := h m (Nat.lt_succ_self m)
      have hn : firstDeletedUpTo hashTable word m = none :=
        ih.2 (fun j hj => h j (Nat.lt_succ_of_lt hj))
      simp [hd, hn]

theorem firstDeletedUpTo_eq_some (hashTable : Table) (word : CStr) (m x : Nat)
    (h : firstDeletedUpTo hashTable word m = some x) :
    ∃ d, d < m ∧ x = probeIndex word d ∧
      (hashTable (probeIndex word d)).status = .DELETED ∧
      ∀ j, j < d → (hashTable (probeIndex word j)).status ≠ .DELETED := by
  induction m with
  | zero => simp [firstDeletedUpTo] at h
  | succ m ih =>
    rw [firstDeletedUpTo_succ] at h
    by_cases hc : (hashTable (probeIndex word m)).status = .DELETED ∧
        firstDeletedUpTo hashTable word m = none
    · rw [if_pos hc] at h
      refine ⟨m, Nat.lt_succ_self m, (Option.some.inj h).symm, hc.1, ?_⟩
      exact (firstDeletedUpTo_eq_none_iff hashTable word m).1 hc.2
    · rw [if_neg hc] at h
      obtain ⟨d, hd, hx, hdel, hfirst⟩ := ih h
      exact ⟨d, Nat.lt_succ_of_lt hd, hx, hdel, hfirst⟩

theorem firstDeletedUpTo_of_first (hashTable : Table) (word : CStr) (d m : Nat) (hdm : d < m)
    (hdel : (hashTable (probeIndex word d)).status = .DELETED)
    (hfirst : ∀ j, j < d → (hashTable (probeIndex word j)).status ≠ .DELETED) :
    firstDeletedUpTo hashTable word m = some (probeIndex word d) := by
  cases hx : firstDeletedUpTo hashTable word m with
  | none =>
    exact absurd hdel ((firstDeletedUpTo_eq_none_iff hashTable word m).1 hx d hdm)
  | some x =>
    obtain ⟨d', _, hx', hdel', hfirst'⟩ := firstDeletedUpTo_eq_some hashTable word m x hx
    rcases Nat.lt_trichotomy d d' with hlt | heq | hgt
    · exact absurd hdel (hfirst' d hlt)
    · rw [hx', heq]
    · exact absurd hdel' (hfirst d' hgt)

/-! ## The four ways `insertEntry` ends -/

theorem insertEntry_cases {hashTable : Table} {word translation : CStr} {r : OpResult}
    (h : insertEntry hashTable word translation = some r) :
    (∃ m, m < TABLE_SIZE - 1 ∧ (∀ j, j < m → Passes hashTable word j) ∧
        slotMatches (hashTable (probeIndex word m)) word ∧
        r = ⟨1, m + 1, setSlot hashTable (probeIndex word m)
              (mergedEntry (hashTable (probeIndex word m)) translation)⟩) ∨
    (∃ m, m < TABLE_SIZE - 1 ∧ (∀ j, j < m → Passes hashTable word j) ∧
        (∀ j, j < m → (hashTable (probeIndex word j)).status ≠ .DELETED) ∧
        (hashTable (probeIndex word m)).status = .EMPTY ∧
        r = ⟨2, m + 1, setSlot hashTable (probeIndex word m) (newEntry word translation)⟩) ∨
    (∃ d m, d < m ∧ m ≤ TABLE_SIZE - 1 ∧ (∀ j, j < m → Passes hashTable word j) ∧
        (m < TABLE_SIZE - 1 → (hashTable (probeIndex word m)).status = .EMPTY) ∧
        (hashTable (probeIndex word d)).status = .DELETED ∧
        (∀ j, j < d → (hashTable (probeIndex word j)).status ≠ .DELETED) ∧
        r = ⟨2, 3, setSlot hashTable (probeIndex word d) (newEntry word translation)⟩) ∨
    ((∀ j, j < TABLE_SIZE - 1 → Passes hashTable word j) ∧
        (∀ j, j < TABLE_SIZE - 1 → (hashTable (probeIndex word j)).status ≠ .DELETED) ∧
        r = ⟨0, TABLE_SIZE, hashTable⟩) := by
  obtain ⟨m, hstop⟩ := exists_firstStop hashTable word (TABLE_SIZE - 1)
  rw [insertEntry_of_firstStop translation hstop] at h
  have hr := (Option.some.inj h).symm
  obtain ⟨hm, hpass, hnot⟩ := hstop
  unfold insertStop at hr
  by_cases hc : m < TABLE_SIZE - 1
  · by_cases he : (hashTable (probeIndex word m)).status = .EMPTY
    · rw [if_pos hc, if_pos he] at hr
      cases hfd : firstDeletedUpTo hashTable word m with
      | none =>
        right; left
        refine ⟨m, hc, hpass, (firstDeletedUpTo_eq_none_iff hashTable word m).1 hfd, he, ?_⟩
        have h1 : ¬ (m + 1 ≥ TABLE_SIZE) := by omega
        rw [hr, hfd]
        simp [insertFinish, h1, newEntry]
      | some x =>
        right; right; left
        obtain ⟨d, hd, hx, hdel, hfirst⟩ := firstDeletedUpTo_eq_some hashTable word m x hfd
        refine ⟨d, m, hd, hm, hpass, fun _ => he, hdel, hfirst, ?_⟩
        rw [hr, hfd, hx]
        simp [insertFinish, newEntry]
    · left
      have hmatch : slotMatches (hashTable (probeIndex word m)) word := by
        by_contra hcon; exact hnot hc ⟨he, hcon⟩
      refine ⟨m, hc, hpass, hmatch, ?_⟩
      rw [if_pos hc, if_neg he] at hr
      rw [hr]
      simp [insertFinish, mergedEntry]
  · have hmN : m = TABLE_SIZE - 1 := by omega
    rw [if_neg hc] at hr
    cases hfd : firstDeletedUpTo hashTable word m with
    | none =>
      right; right; right
      have h1 : m + 1 ≥ TABLE_SIZE := by omega
      have h2 : m + 1 = TABLE_SIZE := by unfold TABLE_SIZE at hmN ⊢; omega
      refine ⟨hmN ▸ hpass, hmN ▸ (firstDeletedUpTo_eq_none_iff hashTable word m).1 hfd, ?_⟩
      rw [hr, hfd]
      simp [insertFinish, h1, h2]
    | some x =>
      right; right; left
      obtain ⟨d, hd, hx, hdel, hfirst⟩ := firstDeletedUpTo_eq_some hashTable word m x hfd
      refine ⟨d, m, hd, hm, hpass, fun h => absurd h hc, hdel, hfirst, ?_⟩
      rw [hr, hfd, hx]
      simp [insertFinish, newEntry]

/-! ## The three ways `searchEntry` and `deleteEntry` end -/

theorem lookup_cases (hashTable : Table) (word : CStr) :
    (∃ m, m < 10 ∧ (∀ j, j < m → Passes hashTable word j) ∧
        slotMatches (hashTable (probeIndex word m)) word ∧
        FirstStop hashTable word 10 m ∧
        lookupStop hashTable word 10 m = .hit (probeIndex word m) (m + 1)) ∨
    (∃ m, m < 10 ∧ (∀ j, j < m → Passes hashTable word j) ∧
        (hashTable (probeIndex word m)).status = .EMPTY ∧
        FirstStop hashTable word 10 m ∧
        lookupStop hashTable word 10 m = .left (m + 1)) ∨
    ((∀ j, j < 10 → Passes hashTable word j) ∧
        FirstStop hashTable word 10 10 ∧
        lookupStop hashTable word 10 10 = .left 11) := by
  obtain ⟨m, hstop⟩ := exists_firstStop hashTable word 10
  have hstop' := hstop
  obtain ⟨hm, hpass, hnot⟩ := hstop
  by_cases hc : m < 10
  · by_cases he : (hashTable (probeIndex word m)).status = .EMPTY
    · right; left
      exact ⟨m, hc, hpass, he, hstop', by simp [lookupStop, hc, he]⟩
    · left
      have hmatch : slotMatches (hashTable (probeIndex word m)) word := by
        by_contra hcon; exact hnot hc ⟨he, hcon⟩
      exact ⟨m, hc, hpass, hmatch, hstop', by simp [lookupStop, hc, he]⟩
  · right; right
    have hm10 : m = 10 := by omega
    subst hm10
    exact ⟨hpass, hstop', by simp [lookupStop]⟩

theorem searchEntry_cases {hashTable : Table} {word : CStr} {r : SearchResult}
    (h : searchEntry hashTable word = some r) :
    (∃ m, m < 10 ∧ (∀ j, j < m → Passes hashTable word j) ∧
        slotMatches (hashTable (probeIndex word m)) word ∧
        r = ⟨1, (hashTable (probeIndex word m)).translation, m + 1⟩) ∨
    (∃ m, m < 10 ∧ (∀ j, j < m → Passes hashTable word j) ∧
        (hashTable (probeIndex word m)).status = .EMPTY ∧ r = ⟨0, none, m⟩) ∨
    ((∀ j, j < 10 → Passes hashTable word j) ∧ r = ⟨0, none, 10⟩) := by
  rcases lookup_cases hashTable word with ⟨m, hm, hpass, hmatch, hstop, hw⟩ |
    ⟨m, hm, hpass, he, hstop, hw⟩ | ⟨hpass, hstop, hw⟩
  · rw [searchEntry_of_firstStop hstop, hw] at h
    exact Or.inl ⟨m, hm, hpass, hmatch, (Option.some.inj h).symm⟩
  · rw [searchEntry_of_firstStop hstop, hw] at h
    exact Or.inr (Or.inl ⟨m, hm, hpass, he, (Option.some.inj h).symm⟩)
  · rw [searchEntry_of_firstStop hstop, hw] at h
    exact Or.inr (Or.inr ⟨hpass, (Option.some.inj h).symm⟩)

theorem deleteEntry_cases {hashTable : Table} {word : CStr} {r : OpResult}
    (h : deleteEntry hashTable word = some r) :
    (∃ m, m < 10 ∧ (∀ j, j < m → Passes hashTable word j) ∧
        slotMatches (hashTable (probeIndex word m)) word ∧
        r = ⟨1, m + 1, setSlot hashTable (probeIndex word m) deletedEntry⟩) ∨
    (∃ m, m < 10 ∧ (∀ j, j < m → Passes hashTable word j) ∧
        (hashTable (probeIndex word m)).status = .EMPTY ∧ r = ⟨0, m, hashTable⟩) ∨
    ((∀ j, j < 10 → Passes hashTable word j) ∧ r = ⟨0, 10, hashTable⟩) := by
  rcases lookup_cases hashTable word with ⟨m, hm, hpass, hmatch, hstop, hw⟩ |
    ⟨m, hm, hpass, he, hstop, hw⟩ | ⟨hpass, hstop, hw⟩
  · rw [deleteEntry_of_firstStop hstop, hw] at h
    exact Or.inl ⟨m, hm, hpass, hmatch, (Option.some.inj h).symm⟩
  · rw [deleteEntry_of_firstStop hstop, hw] at h
    exact Or.inr (Or.inl ⟨m, hm, hpass, he, (Option.some.inj h).symm⟩)
  · rw [deleteEntry_of_firstStop hstop, hw] at h
    exact Or.inr (Or.inr ⟨hpass, (Option.some.inj h).symm⟩)

/-! ## Forward forms: from the slots on the probe sequence to the result -/

theorem firstStop_of_match {hashTable : Table} {word : CStr} {cap m : Nat} (hm : m < cap)
    (hpass : ∀ j, j < m → Passes hashTable word j)
    (hmatch : slotMatches (hashTable (probeIndex word m)) word) :
    FirstStop hashTable word cap m :=
  ⟨Nat.le_of_lt hm, hpass, fun _ hp => hp.2 hmatch⟩

theorem firstStop_of_empty {hashTable : Table} {word : CStr} {cap m : Nat} (hm : m < cap)
    (hpass : ∀ j, j < m → Passes hashTable word j)
    (he : (hashTable (probeIndex word m)).status = .EMPTY) :
    FirstStop hashTable word cap m :=
  ⟨Nat.le_of_lt hm, hpass, fun _ hp => hp.1 he⟩

theorem firstStop_of_all {hashTable : Table} {word : CStr} {cap : Nat}
    (hpass : ∀ j, j < cap → Passes hashTable word j) :
    FirstStop hashTable word cap cap :=
  ⟨Nat.le_refl cap, hpass, fun h => absurd h (Nat.lt_irrefl cap)⟩

theorem status_ne_empty_of_match {e : DictionaryEntry} {word : CStr}
    (h : slotMatches e word) : e.status ≠ .EMPTY := by
  rw [h.1]; decide

theorem searchEntry_hit {hashTable : Table} {word : CStr} {m : Nat} (hm : m < 10)
    (hpass : ∀ j, j < m → Passes hashTable word j)
    (hmatch : slotMatches (hashTable (probeIndex word m)) word) :
    searchEntry hashTable word
      = some ⟨1, (hashTable (probeIndex word m)).translation, m + 1⟩ := by
  rw [searchEntry_of_firstStop (firstStop_of_match hm hpass hmatch)]
  simp [lookupStop, hm, status_ne_empty_of_match hmatch, searchFinish]

theorem searchEntry_miss_empty {hashTable : Table} {word : CStr} {m : Nat} (hm : m < 10)
    (hpass : ∀ j, j < m → Passes hashTable word j)
    (he : (hashTable (probeIndex word m)).status = .EMPTY) :
    searchEntry hashTable word = some ⟨0, none, m⟩ := by
  rw [searchEntry_of_firstStop (firstStop_of_empty hm hpass he)]
  simp [lookupStop, hm, he, searchFinish]

theorem searchEntry_miss_cap {hashTable : Table} {word : CStr}
    (hpass : ∀ j, j < 10 → Passes hashTable word j) :
    searchEntry hashTable word = some ⟨0, none, 10⟩ := by
  rw [searchEntry_of_firstStop (firstStop_of_all hpass)]
  simp [lookupStop, searchFinish]

theorem deleteEntry_hit {hashTable : Table} {word : CStr} {m : Nat} (hm : m < 10)
    (hpass : ∀ j, j < m → Passes hashTable word j)
    (hmatch : slotMatches (hashTable (probeIndex word m)) word) :
    deleteEntry hashTable word
      = some ⟨1, m + 1, setSlot hashTable (probeIndex word m) deletedEntry⟩ := by
  rw [deleteEntry_of_firstStop (firstStop_of_match hm hpass hmatch)]
  simp [lookupStop, hm, status_ne_empty_of_match hmatch, deleteFinish]

theorem deleteEntry_miss_empty {hashTable : Table} {word : CStr} {m : Nat} (hm : m < 10)
    (hpass : ∀ j, j < m → Passes hashTable word j)
    (he : (hashTable (probeIndex word m)).status = .EMPTY) :
    deleteEntry hashTable word = some ⟨0, m, hashTable⟩ := by
  rw [deleteEntry_of_firstStop (firstStop_of_empty hm hpass he)]
  simp [lookupStop, hm, he, deleteFinish]

theorem deleteEntry_miss_cap {hashTable : Table} {word : CStr}
    (hpass : ∀ j, j < 10 → Passes hashTable word j) :
    deleteEntry hashTable word = some ⟨0, 10, hashTable⟩ := by
  rw [deleteEntry_of_firstStop (firstStop_of_all hpass)]
  simp [lookupStop, deleteFinish]

theorem insertEntry_update {hashTable : Table} {word : CStr} (translation : CStr) {m : Nat}
    (hm : m < TABLE_SIZE - 1) (hpass : ∀ j, j < m → Passes hashTable word j)
    (hmatch : slotMatches (hashTable (probeIndex word m)) word) :
    insertEntry hashTable word translation
      = some ⟨1, m + 1, setSlot hashTable (probeIndex word m)
          (mergedEntry (hashTable (probeIndex word m)) translation)⟩ := by
  rw [insertEntry_of_firstStop translation (firstStop_of_match hm hpass hmatch)]
  simp [insertStop, hm, status_ne_empty_of_match hmatch, insertFinish]

theorem insertEntry_fresh {hashTable : Table} {word : CStr} (translation : CStr) {m : Nat}
    (hm : m < TABLE_SIZE - 1) (hpass : ∀ j, j < m → Passes hashTable word j)
    (hnd : ∀ j, j < m → (hashTable (probeIndex word j)).status ≠ .DELETED)
    (he : (hashTable (probeIndex word m)).status = .EMPTY) :
    insertEntry hashTable word translation
      = some ⟨2, m + 1, setSlot hashTable (probeIndex word m) (newEntry word translation)⟩ := by
  rw [insertEntry_of_firstStop translation (firstStop_of_empty hm hpass he)]
  have h1 : ¬ (m + 1 ≥ TABLE_SIZE) := by omega
  simp [insertStop, hm, he, insertFinish,
    (firstDeletedUpTo_eq_none_iff hashTable word m).2 hnd, h1]

theorem insertEntry_reuse {hashTable : Table} {word : CStr} (translation : CStr) {d m : Nat}
    (hdm : d < m) (hm : m ≤ TABLE_SIZE - 1) (hpass : ∀ j, j < m → Passes hashTable word j)
    (he : m < TABLE_SIZE - 1 → (hashTable (probeIndex word m)).status = .EMPTY)
    (hdel : (hashTable (probeIndex word d)).status = .DELETED)
    (hfirst : ∀ j, j < d → (hashTable (probeIndex word j)).status ≠ .DELETED) :
    insertEntry hashTable word translation
      = some ⟨2, 3, setSlot hashTable (probeIndex word d) (newEntry word translation)⟩ := by
  have hstop : FirstStop hashTable word (TABLE_SIZE - 1) m :=
    ⟨hm, hpass, fun h hp => hp.1 (he h)⟩
  rw [insertEntry_of_firstStop translation hstop]
  have hfd := firstDeletedUpTo_of_first hashTable word d m hdm hdel hfirst
  by_cases hc : m < TABLE_SIZE - 1
  · simp [insertStop, hc, he hc, insertFinish, hfd]
  · simp [insertStop, hc, insertFinish, hfd]

theorem insertEntry_full {hashTable : Table} {word : CStr} (translation : CStr)
    (hpass : ∀ j, j < TABLE_SIZE - 1 → Passes hashTable word j)
    (hnd : ∀ j, j < TABLE_SIZE - 1 → (hashTable (probeIndex word j)).status ≠ .DELETED) :
    insertEntry hashTable word translation = some ⟨0, TABLE_SIZE, hashTable⟩ := by
  rw [insertEntry_of_firstStop translation (firstStop_of_all hpass)]
  have h1 : TABLE_SIZE - 1 + 1 = TABLE_SIZE := by unfold TABLE_SIZE; rfl
  simp [insertStop, insertFinish, (firstDeletedUpTo_eq_none_iff hashTable word _).2 hnd, h1]

/-! ## The invariant is kept by every operation -/

theorem setSlot_same (hashTable : Table) (index : Nat) (e : DictionaryEntry) :
    setSlot hashTable index e index = e := by
  simp [setSlot]

theorem setSlot_other (hashTable : Table) {index i : Nat} (e : DictionaryEntry)
    (h : i ≠ index) : setSlot hashTable index e i = hashTable i := by
  simp [setSlot, h]

theorem setSlot_status_ne_empty (hashTable : Table) (index : Nat) (e : DictionaryEntry)
    (he : e.status ≠ .EMPTY) (i : Nat) (h : (hashTable i).status ≠ .EMPTY) :
    (setSlot hashTable index e i).status ≠ .EMPTY := by
  by_cases hi : i = index
  · rw [hi, setSlot_same]; exact he
  · rw [setSlot_other hashTable e hi]; exact h

theorem tableInv_init : TableInv initializeHashTable where
  payload := by intro i h; simp [initializeHashTable] at h
  placement := by intro i w h; simp [initializeHashTable, slotMatches] at h
  unique := by intro i j w h; simp [initializeHashTable, slotMatches] at h

theorem slotMatches_merged (e : DictionaryEntry) (translation : CStr) (w : CStr) :
    slotMatches (mergedEntry e translation) w ↔ slotMatches e w := Iff.rfl

theorem slotMatches_setSlot_merged (hashTable : Table) (index : Nat) (translation : CStr)
    (i : Nat) (w : CStr) :
    slotMatches
        (setSlot hashTable index (mergedEntry (hashTable index) translation) i) w
      ↔ slotMatches (hashTable i) w := by
  by_cases hi : i = index
  · rw [hi, setSlot_same]; exact Iff.rfl
  · rw [setSlot_other hashTable _ hi]

theorem status_setSlot_merged (hashTable : Table) (index : Nat) (translation : CStr)
    (i : Nat) :
    (setSlot hashTable index (mergedEntry (hashTable index) translation) i).status
      = (hashTable i).status := by
  by_cases hi : i = index
  · rw [hi, setSlot_same]; rfl
  · rw [setSlot_other hashTable _ hi]

theorem tableInv_merge {hashTable : Table} (h : TableInv hashTable) (index : Nat)
    (translation : CStr) :
    TableInv (setSlot hashTable index (mergedEntry (hashTable index) translation)) where
  payload := by
    intro i hi
    rw [status_setSlot_merged] at hi
    obtain ⟨hw, hv⟩ := h.payload i hi
    by_cases hidx : i = index
    · subst hidx
      rw [setSlot_same]
      obtain ⟨v, hv⟩ := hv
      exact ⟨hw, ⟨appendTranslation v translation, by simp [mergedEntry, hv]⟩⟩
    · rw [setSlot_other hashTable _ hidx]
      exact ⟨hw, hv⟩
  placement := by
    intro i w hi
    rw [slotMatches_setSlot_merged] at hi
    obtain ⟨d, hd, hidx, hne⟩ := h.placement i w hi
    refine ⟨d, hd, hidx, fun j hj => ?_⟩
    rw [status_setSlot_merged]
    exact hne j hj
  unique := by
    intro i j w hi hj
    rw [slotMatches_setSlot_merged] at hi hj
    exact h.unique i j w hi hj

theorem slotMatches_newEntry {word translation w : CStr}
    (h : slotMatches (newEntry word translation) w) : w = word := by
  have := h.2
  simp [newEntry] at this
  exact this.symm

theorem tableInv_new {hashTable : Table} (h : TableInv hashTable) (word translation : CStr)
    (d : Nat) (hd : d < TABLE_SIZE - 1)
    (hbefore : ∀ j, j < d → (hashTable (probeIndex word j)).status ≠ .EMPTY)
    (habsent : ∀ i, ¬ slotMatches (hashTable i) word) :
    TableInv (setSlot hashTable (probeIndex word d) (newEntry word translation)) where
  payload := by
    intro i hi
    by_cases hidx : i = probeIndex word d
    · rw [hidx, setSlot_same]
      exact ⟨⟨word, rfl⟩, ⟨translation, rfl⟩⟩
    · rw [setSlot_other hashTable _ hidx] at hi ⊢
      exact h.payload i hi
  placement := by
    intro i w hi
    have hne : (newEntry word translation).status ≠ .EMPTY := by simp [newEntry]
    by_cases hidx : i = probeIndex word d
    · rw [hidx, setSlot_same] at hi
      have hw := slotMatches_newEntry hi
      subst hw
      exact ⟨d, hd, hidx.symm, fun j hj =>
        setSlot_status_ne_empty hashTable _ _ hne _ (hbefore j hj)⟩
    · rw [setSlot_other hashTable _ hidx] at hi
      obtain ⟨d', hd', hi', hne'⟩ := h.placement i w hi
      exact ⟨d', hd', hi', fun j hj =>
        setSlot_status_ne_empty hashTable _ _ hne _ (hne' j hj)⟩
  unique := by
    intro i j w hi hj
    by_cases hidx : i = probeIndex word d
    · by_cases hjdx : j = probeIndex word d
      · rw [hidx, hjdx]
      · rw [hidx, setSlot_same] at hi
        rw [setSlot_other hashTable _ hjdx] at hj
        have hw := slotMatches_newEntry hi
        subst hw
        exact absurd hj (habsent j)
    · rw [setSlot_other hashTable _ hidx] at hi
      by_cases hjdx : j = probeIndex word d
      · rw [hjdx, setSlot_same] at hj
        have hw := slotMatches_newEntry hj
        subst hw
        exact absurd hi (habsent i)
      · rw [setSlot_other hashTable _ hjdx] at hj
        exact h.unique i j w hi hj

theorem tableInv_deleted {hashTable : Table} (h : TableInv hashTable) (index : Nat) :
    TableInv (setSlot hashTable index deletedEntry) where
  payload := by
    intro i hi
    by_cases hidx : i = index
    · rw [hidx, setSlot_same] at hi
      simp [deletedEntry] at hi
    · rw [setSlot_other hashTable _ hidx] at hi ⊢
      exact h.payload i hi
  placement := by
    intro i w hi
    have hne : deletedEntry.status ≠ .EMPTY := by simp [deletedEntry]
    by_cases hidx : i = index
    · rw [hidx, setSlot_same] at hi
      simp [deletedEntry, slotMatches] at hi
    · rw [setSlot_other hashTable _ hidx] at hi
      obtain ⟨d', hd', hi', hne'⟩ := h.placement i w hi
      exact ⟨d', hd', hi', fun j hj =>
        setSlot_status_ne_empty hashTable _ _ hne _ (hne' j hj)⟩
  unique := by
    intro i j w hi hj
    by_cases hidx : i = index
    · rw [hidx, setSlot_same] at hi
      simp [deletedEntry, slotMatches] at hi
    · by_cases hjdx : j = index
      · rw [hjdx, setSlot_same] at hj
        simp [deletedEntry, slotMatches] at hj
      · rw [setSlot_other hashTable _ hidx] at hi
        rw [setSlot_other hashTable _ hjdx] at hj
        exact h.unique i j w hi hj

/-- A walk of `insertEntry` that met no slot holding `word` before an `EMPTY`
slot, or before the end of the loop, shows that no slot holds `word`. -/
theorem absent_of_walk {hashTable : Table} (h : TableInv hashTable) {word : CStr} {m : Nat}
    (hpass : ∀ j, j < m → Passes hashTable word j)
    (hend : m < TABLE_SIZE - 1 → (hashTable (probeIndex word m)).status = .EMPTY) :
    ∀ i, ¬ slotMatches (hashTable i) word := by
  intro i hi
  obtain ⟨d, hd, hidx, hne⟩ := h.placement i word hi
  rcases Nat.lt_trichotomy d m with hlt | heq | hgt
  · exact (hpass d hlt).2 (hidx ▸ hi)
  · have he := hend (heq ▸ hd)
    rw [← heq, hidx] at he
    exact status_ne_empty_of_match hi he
  · exact hne m hgt (hend (by omega))

theorem tableInv_insertEntry {hashTable : Table} (h : TableInv hashTable)
    {word translation : CStr} {r : OpResult}
    (hr : insertEntry hashTable word translation = some r) : TableInv r.hashTable := by
  rcases insertEntry_cases hr with ⟨m, _, _, _, rfl⟩ | ⟨m, hm, hpass, _, he, rfl⟩ |
    ⟨d, m, hdm, hm, hpass, he, _, _, rfl⟩ | ⟨_, _, rfl⟩
  · exact tableInv_merge h _ _
  · exact tableInv_new h word translation m hm (fun j hj => (hpass j hj).1)
      (absent_of_walk h hpass (fun _ => he))
  · exact tableInv_new h word translation d (by omega)
      (fun j hj => (hpass j (by omega)).1) (absent_of_walk h hpass he)
  · exact h

theorem tableInv_deleteEntry {hashTable : Table} (h : TableInv hashTable)
    {word : CStr} {r : OpResult}
    (hr : deleteEntry hashTable word = some r) : TableInv r.hashTable := by
  rcases deleteEntry_cases hr with ⟨m, _, _, _, rfl⟩ | ⟨m, _, _, _, rfl⟩ | ⟨_, rfl⟩
  · exact tableInv_deleted h _
  · exact h
  · exact h

theorem reachable_inv {hashTable : Table} (h : Reachable hashTable) : TableInv hashTable := by
  induction h with
  | init => exact tableInv_init
  | insert word translation _ hr ih => exact tableInv_insertEntry ih hr
  | delete word _ hr ih => exact tableInv_deleteEntry ih hr

/-! ## Sample tables are reachable -/

theorem insertEntry_init_cat :
    insertEntry initializeHashTable cat gato = some ⟨2, 1, catTable⟩ :=
  insertEntry_fresh gato (by decide) (fun j hj => absurd hj (Nat.not_lt_zero j))
    (fun j hj => absurd hj (Nat.not_lt_zero j)) (by decide)

theorem insertEntry_cat_dog :
    insertEntry catTable dog perro = some ⟨2, 1, catDogTable⟩ :=
  insertEntry_fresh perro (by decide) (fun j hj => absurd hj (Nat.not_lt_zero j))
    (fun j hj => absurd hj (Nat.not_lt_zero j)) (by decide)

theorem catTable_reachable : Reachable catTable :=
  Reachable.insert cat gato Reachable.init insertEntry_init_cat

theorem catDogTable_reachable : Reachable catDogTable :=
  Reachable.insert dog perro catTable_reachable insertEntry_cat_dog

/-! ## Key uniqueness -/

/-- C1. In every table reachable from the table of `initializeHashTable` by
`insertEntry` and `deleteEntry` calls, two distinct slots that are both
`FILLED` do not hold equal keys (for any two indices, so for those of the
`TABLE_SIZE` slots). -/
theorem key_uniqueness (hashTable : Table) (h : Reachable hashTable) (i j : Nat) (hij : i ≠ j)
    (hfi : (hashTable i).status = .FILLED) (hfj : (hashTable j).status = .FILLED) :
    (hashTable i).word ≠ (hashTable j).word := by
  have hinv := reachable_inv h
  intro heq
  obtain ⟨⟨w, hw⟩, _⟩ := hinv.payload i hfi
  exact hij (hinv.unique i j w ⟨hfi, hw⟩ ⟨hfj, heq ▸ hw⟩)

/-- C1 at the table holding `cat` and `dog`, for their two slots. -/
theorem key_uniqueness_witness :
    Reachable catDogTable ∧ probeIndex cat 0 ≠ probeIndex dog 0 ∧
      (catDogTable (probeIndex cat 0)).status = .FILLED ∧
      (catDogTable (probeIndex dog 0)).status = .FILLED ∧
      (catDogTable (probeIndex cat 0)).word ≠ (catDogTable (probeIndex dog 0)).word :=
  ⟨catDogTable_reachable, by decide, by decide, by decide,
    key_uniqueness catDogTable catDogTable_reachable (probeIndex cat 0) (probeIndex dog 0)
      (by decide) (by decide) (by decide)⟩

/-! ## Search -/

/-- C2. `searchEntry` returns 1 with translation `v` and probe count `p` exactly
when `1 ≤ p ≤ 10`, the slot `idx_{p-1}` is `FILLED` with the key and holds the
translation `v`, and every slot `idx_i` with `i < p - 1` is neither `EMPTY` nor
`FILLED` with the key; the translation returned is the one stored. -/
theorem search_hit_iff (hashTable : Table) (word v : CStr) (p : Nat) :
    searchEntry hashTable word = some ⟨1, some v, p⟩ ↔
      1 ≤ p ∧ p ≤ 10 ∧
      (hashTable (probeIndex word (p - 1))).status = .FILLED ∧
      (hashTable (probeIndex word (p - 1))).word = some word ∧
      (hashTable (probeIndex word (p - 1))).translation = some v ∧
      ∀ i, i < p - 1 →
        (hashTable (probeIndex word i)).status ≠ .EMPTY ∧
        ¬ ((hashTable (probeIndex word i)).status = .FILLED ∧
            (hashTable (probeIndex word i)).word = some word) := by
  constructor
  · intro h
    rcases searchEntry_cases h with ⟨m, hm, hpass, hmatch, hr⟩ | ⟨m, _, _, _, hr⟩ | ⟨_, hr⟩
    · have hp : p = m + 1 := by injection hr
      have ht : some v = (hashTable (probeIndex word m)).translation := by injection hr
      subst hp
      exact ⟨by omega, by omega, hmatch.1, hmatch.2, ht.symm, hpass⟩
    · have : (1 : Nat) = 0 := by injection hr
      omega
    · have : (1 : Nat) = 0 := by injection hr
      omega
  · rintro ⟨hp1, hp10, hs, hw, ht, hpass⟩
    have h := @searchEntry_hit hashTable word (p - 1)
      (by omega) hpass ⟨hs, hw⟩
    rw [h, ht]
    have : p - 1 + 1 = p := by omega
    rw [this]

/-! ## Walks over a table that changed in one slot -/

theorem passes_setSlot_merged (hashTable : Table) (index : Nat) (translation : CStr)
    (word : CStr) (j : Nat) :
    Passes (setSlot hashTable index (mergedEntry (hashTable index) translation)) word j
      ↔ Passes hashTable word j := by
  unfold Passes
  rw [status_setSlot_merged, slotMatches_setSlot_merged]

theorem passes_setSlot_other (hashTable : Table) {index : Nat} (e : DictionaryEntry)
    {word : CStr} {j : Nat} (h : probeIndex word j ≠ index) :
    Passes (setSlot hashTable index e) word j ↔ Passes hashTable word j := by
  unfold Passes
  rw [setSlot_other hashTable e h]

theorem slotMatches_newEntry_self (word translation : CStr) :
    slotMatches (newEntry word translation) word := ⟨rfl, rfl⟩

theorem not_slotMatches_deletedEntry (word : CStr) : ¬ slotMatches deletedEntry word := by
  simp [slotMatches, deletedEntry]

theorem mergedEntry_newEntry (word v1 v2 : CStr) :
    mergedEntry (newEntry word v1) v2 = newEntry word (v1 ++ [59] ++ v2) := rfl

theorem setSlot_merged_newEntry {hashTable : Table} {index : Nat} {word v : CStr}
    (v2 : CStr) (h : hashTable index = newEntry word v) :
    setSlot hashTable index (mergedEntry (hashTable index) v2) index
      = newEntry word (v ++ [59] ++ v2) := by
  rw [setSlot_same, h, mergedEntry_newEntry]

theorem searchEntry_absent {hashTable : Table} {word : CStr}
    (h : ∀ j, j < 10 → ¬ slotMatches (hashTable (probeIndex word j)) word) :
    ∃ p, p ≤ 10 ∧ searchEntry hashTable word = some ⟨0, none, p⟩ := by
  obtain ⟨r, hr⟩ := searchEntry_returns hashTable word
  rcases searchEntry_cases hr with ⟨m, hm, _, hmatch, _⟩ | ⟨m, hm, _, _, rfl⟩ | ⟨_, rfl⟩
  · exact absurd hmatch (h m hm)
  · exact ⟨m, Nat.le_of_lt hm, hr⟩
  · exact ⟨10, Nat.le_refl 10, hr⟩

theorem deleteEntry_absent {hashTable : Table} {word : CStr}
    (h : ∀ j, j < 10 → ¬ slotMatches (hashTable (probeIndex word j)) word) :
    ∃ p, p ≤ 10 ∧ deleteEntry hashTable word = some ⟨0, p, hashTable⟩ := by
  obtain ⟨r, hr⟩ := deleteEntry_returns hashTable word
  rcases deleteEntry_cases hr with ⟨m, hm, _, hmatch, _⟩ | ⟨m, hm, _, _, rfl⟩ | ⟨_, rfl⟩
  · exact absurd hmatch (h m hm)
  · exact ⟨m, Nat.le_of_lt hm, hr⟩
  · exact ⟨10, Nat.le_refl 10, hr⟩

/-- A successful insertion of a new key puts it at some depth of its probe
sequence, behind slots that are passed over and are other slots. -/
theorem insertEntry_inserted {hashTable : Table} {word translation : CStr} {r : OpResult}
    (h : insertEntry hashTable word translation = some r) (hret : r.ret = 2) :
    ∃ d, d < TABLE_SIZE - 1 ∧
      r.hashTable = setSlot hashTable (probeIndex word d) (newEntry word translation) ∧
      (∀ j, j < d → Passes hashTable word j) ∧
      (∀ j, j < d → probeIndex word j ≠ probeIndex word d) := by
  rcases insertEntry_cases h with ⟨m, _, _, _, rfl⟩ | ⟨m, hm, hpass, _, he, rfl⟩ |
    ⟨d, m, hdm, hm, hpass, _, hdel, hfirst, rfl⟩ | ⟨_, _, rfl⟩
  · simp at hret
  · refine ⟨m, hm, rfl, hpass, fun j hj heq => ?_⟩
    exact (hpass j hj).1 (heq ▸ he)
  · refine ⟨d, by omega, rfl, fun j hj => hpass j (by omega), fun j hj heq => ?_⟩
    exact hfirst j hj (heq ▸ hdel)
  · simp at hret

/-! ## Merge on a duplicate key -/

/-- C3. On a reachable table, when `insertEntry(k, v1)` returns 2, a following
`insertEntry(k, v2)` returns 1 and leaves exactly one slot `FILLED` with `k`,
holding `v1;v2`; a third `insertEntry(k, v3)` returns 1 again and leaves that
slot alone holding `v1;v2;v3`.  Both updates report the depth `d + 1` of that
slot on the probe sequence of `k`, the first depth at which `k` is met. -/
theorem merge_on_duplicate (hashTable : Table) (h : Reachable hashTable)
    (k v1 v2 v3 : CStr) (r1 : OpResult)
    (h1 : insertEntry hashTable k v1 = some r1) (hret : r1.ret = 2) :
    ∃ d r2 r3, d < TABLE_SIZE - 1 ∧
      (∀ j, j < d → ¬ slotMatches (r1.hashTable (probeIndex k j)) k) ∧
      insertEntry r1.hashTable k v2 = some r2 ∧ r2.ret = 1 ∧ r2.probeCount = d + 1 ∧
      HoldsOnly r2.hashTable k (probeIndex k d) (v1 ++ [59] ++ v2) ∧
      insertEntry r2.hashTable k v3 = some r3 ∧ r3.ret = 1 ∧ r3.probeCount = d + 1 ∧
      HoldsOnly r3.hashTable k (probeIndex k d) (v1 ++ [59] ++ v2 ++ [59] ++ v3) := by
  obtain ⟨d, hd, ht1, hpass, hne⟩ := insertEntry_inserted h1 hret
  have hreach1 : Reachable r1.hashTable := Reachable.insert k v1 h h1
  have hpass1 : ∀ j, j < d → Passes r1.hashTable k j := by
    intro j hj
    rw [ht1, passes_setSlot_other hashTable _ (hne j hj)]
    exact hpass j hj
  have hslot1 : r1.hashTable (probeIndex k d) = newEntry k v1 := by
    rw [ht1, setSlot_same]
  have hmatch1 : slotMatches (r1.hashTable (probeIndex k d)) k := by
    rw [hslot1]; exact slotMatches_newEntry_self k v1
  have h2 := insertEntry_update v2 hd hpass1 hmatch1
  have hreach2 := Reachable.insert k v2 hreach1 h2
  have hslot2 := setSlot_merged_newEntry v2 hslot1
  have hpass2 : ∀ j, j < d → Passes (setSlot r1.hashTable (probeIndex k d)
      (mergedEntry (r1.hashTable (probeIndex k d)) v2)) k j := by
    intro j hj
    rw [passes_setSlot_merged]
    exact hpass1 j hj
  have hmatch2 : slotMatches (setSlot r1.hashTable (probeIndex k d)
      (mergedEntry (r1.hashTable (probeIndex k d)) v2) (probeIndex k d)) k := by
    rw [hslot2]; exact slotMatches_newEntry_self k _
  have h3 := insertEntry_update v3 hd hpass2 hmatch2
  have hreach3 := Reachable.insert k v3 hreach2 h3
  have hslot3 := setSlot_merged_newEntry v3 hslot2
  refine ⟨d, _, _, hd, fun j hj => (hpass1 j hj).2, h2, rfl, rfl, ⟨hslot2, ?_⟩,
    h3, rfl, rfl, ⟨hslot3, ?_⟩⟩
  · intro j hj
    exact (reachable_inv hreach2).unique j _ k hj hmatch2
  · intro j hj
    have hmatch3 := slotMatches_newEntry_self k (v1 ++ [59] ++ v2 ++ [59] ++ v3)
    rw [← hslot3] at hmatch3
    exact (reachable_inv hreach3).unique j _ k hj hmatch3

/-- C3 on the initial table with the key `cat`. -/
theorem merge_on_duplicate_witness :
    Reachable initializeHashTable ∧
    insertEntry initializeHashTable cat gato = some ⟨2, 1, catTable⟩ ∧
    ∃ d r2 r3, d < TABLE_SIZE - 1 ∧
      (∀ j, j < d → ¬ slotMatches (catTable (probeIndex cat j)) cat) ∧
      insertEntry catTable cat felino = some r2 ∧ r2.ret = 1 ∧ r2.probeCount = d + 1 ∧
      HoldsOnly r2.hashTable cat (probeIndex cat d) (gato ++ [59] ++ felino) ∧
      insertEntry r2.hashTable cat perro = some r3 ∧ r3.ret = 1 ∧ r3.probeCount = d + 1 ∧
      HoldsOnly r3.hashTable cat (probeIndex cat d) (gato ++ [59] ++ felino ++ [59] ++ perro) :=
  ⟨Reachable.init, insertEntry_init_cat,
    merge_on_duplicate initializeHashTable Reachable.init cat gato felino perro
      ⟨2, 1, catTable⟩ insertEntry_init_cat rfl⟩

/-! ## End-to-end scenario -/

theorem initializeHashTable_status (i : Nat) : (initializeHashTable i).status = .EMPTY := rfl

theorem not_slotMatches_init (i : Nat) (word : CStr) :
    ¬ slotMatches (initializeHashTable i) word := by
  simp [slotMatches, initializeHashTable]

theorem not_slotMatches_newEntry {word translation w : CStr} (h : word ≠ w) :
    ¬ slotMatches (newEntry word translation) w := by
  intro hm
  exact h (slotMatches_newEntry hm).symm

/-- The second insertion of the scenario: the new key lands at depth 1 or 2 of
its probe sequence, in a slot other than the one of the first key. -/
theorem insertEntry_second (k1 k2 v1 v2 : CStr) (hne : k1 ≠ k2) :
    ∃ e, e < 2 ∧ probeIndex k2 e ≠ probeIndex k1 0 ∧
      (∀ j, j < e → probeIndex k2 j = probeIndex k1 0) ∧
      insertEntry (setSlot initializeHashTable (probeIndex k1 0) (newEntry k1 v1)) k2 v2
        = some ⟨2, e + 1,
            setSlot (setSlot initializeHashTable (probeIndex k1 0) (newEntry k1 v1))
              (probeIndex k2 e) (newEntry k2 v2)⟩ := by
  by_cases hb : probeIndex k2 0 = probeIndex k1 0
  · have h10 : probeIndex k2 1 ≠ probeIndex k1 0 := by
      rw [← hb]
      intro heq
      have := probeIndex_inj k2 (i := 1) (j := 0) (by decide) (by decide) heq
      omega
    have hj0 : ∀ j, j < 1 → j = 0 := fun j hj => by omega
    refine ⟨1, by omega, h10, fun j hj => by rw [hj0 j hj]; exact hb, ?_⟩
    refine insertEntry_fresh v2 (by decide) ?_ ?_ ?_
    · intro j hj
      rw [hj0 j hj]
      unfold Passes
      rw [hb, setSlot_same]
      exact ⟨by simp [newEntry], not_slotMatches_newEntry hne⟩
    · intro j hj
      rw [hj0 j hj, hb, setSlot_same]
      simp [newEntry]
    · rw [setSlot_other _ _ h10]
      rfl
  · refine ⟨0, by omega, hb, fun j hj => absurd hj (Nat.not_lt_zero j), ?_⟩
    refine insertEntry_fresh v2 (by decide) (fun j hj => absurd hj (Nat.not_lt_zero j))
      (fun j hj => absurd hj (Nat.not_lt_zero j)) ?_
    rw [setSlot_other _ _ hb]
    rfl

/-- C4. For distinct keys `k1`, `k2`: from the initial table, after
`insertEntry(k1, v1)` and `insertEntry(k2, v2)`, `searchEntry(k1)` returns 1
with `v1`; `insertEntry(k1, v3)` returns 1 and the one slot of `k1` then holds
`v1;v3`, which `searchEntry(k1)` returns; `deleteEntry(k2)` returns 1;
`searchEntry(k2)` then returns 0; and a second `deleteEntry(k2)` returns 0. -/
theorem end_to_end (k1 k2 v1 v2 v3 : CStr) (hne : k1 ≠ k2) :
    ∃ (r1 r2 r3 r4 r5 : OpResult) (s1 s2 : SearchResult),
      insertEntry initializeHashTable k1 v1 = some r1 ∧
      insertEntry r1.hashTable k2 v2 = some r2 ∧
      searchEntry r2.hashTable k1 = some s1 ∧ s1.ret = 1 ∧ s1.translation = some v1 ∧
      insertEntry r2.hashTable k1 v3 = some r3 ∧ r3.ret = 1 ∧
      HoldsOnly r3.hashTable k1 (probeIndex k1 0) (v1 ++ [59] ++ v3) ∧
      searchEntry r3.hashTable k1 = some ⟨1, some (v1 ++ [59] ++ v3), 1⟩ ∧
      deleteEntry r3.hashTable k2 = some r4 ∧ r4.ret = 1 ∧
      searchEntry r4.hashTable k2 = some s2 ∧ s2.ret = 0 ∧
      deleteEntry r4.hashTable k2 = some r5 ∧ r5.ret = 0 := by
  have hnone : ∀ j, j < 0 → Passes initializeHashTable k1 j :=
    fun j hj => absurd hj (Nat.not_lt_zero j)
  have h1 : insertEntry initializeHashTable k1 v1
      = some ⟨2, 1, setSlot initializeHashTable (probeIndex k1 0) (newEntry k1 v1)⟩ :=
    insertEntry_fresh v1 (by decide) hnone
      (fun j hj => absurd hj (Nat.not_lt_zero j)) rfl
  obtain ⟨e, he, hba, hcoll, h2⟩ := insertEntry_second k1 k2 v1 v2 hne
  generalize ht1 : setSlot initializeHashTable (probeIndex k1 0) (newEntry k1 v1) = t1 at h1 h2
  generalize ht2 : setSlot t1 (probeIndex k2 e) (newEntry k2 v2) = t2 at h2
  have hab : probeIndex k1 0 ≠ probeIndex k2 e := fun h => hba h.symm
  have ht2a : t2 (probeIndex k1 0) = newEntry k1 v1 := by
    rw [← ht2, setSlot_other _ _ hab, ← ht1, setSlot_same]
  have ht2b : t2 (probeIndex k2 e) = newEntry k2 v2 := by
    rw [← ht2, setSlot_same]
  have ht2o : ∀ i, i ≠ probeIndex k1 0 → i ≠ probeIndex k2 e → t2 i = initializeHashTable i := by
    intro i hia hib
    rw [← ht2, setSlot_other _ _ hib, ← ht1, setSlot_other _ _ hia]
  have hmatch2 : slotMatches (t2 (probeIndex k1 0)) k1 := by
    rw [ht2a]; exact slotMatches_newEntry_self k1 v1
  have hnone2 : ∀ j, j < 0 → Passes t2 k1 j := fun j hj => absurd hj (Nat.not_lt_zero j)
  have hs1 := searchEntry_hit (by decide) hnone2 hmatch2
  rw [ht2a] at hs1
  have h3 := insertEntry_update v3 (by decide) hnone2 hmatch2
  have hslot3 := setSlot_merged_newEntry v3 ht2a
  generalize ht3 : setSlot t2 (probeIndex k1 0) (mergedEntry (t2 (probeIndex k1 0)) v3) = t3
    at h3 hslot3
  have ht3b : t3 (probeIndex k2 e) = newEntry k2 v2 := by
    rw [← ht3, setSlot_other _ _ hba, ht2b]
  have ht3o : ∀ i, i ≠ probeIndex k1 0 → i ≠ probeIndex k2 e → t3 i = initializeHashTable i := by
    intro i hia hib
    rw [← ht3, setSlot_other _ _ hia, ht2o i hia hib]
  have hmatch3 : slotMatches (t3 (probeIndex k1 0)) k1 := by
    rw [hslot3]; exact slotMatches_newEntry_self k1 _
  have hnone3 : ∀ j, j < 0 → Passes t3 k1 j := fun j hj => absurd hj (Nat.not_lt_zero j)
  have hs3 := searchEntry_hit (by decide) hnone3 hmatch3
  rw [hslot3] at hs3
  have honly3 : HoldsOnly t3 k1 (probeIndex k1 0) (v1 ++ [59] ++ v3) := by
    refine ⟨hslot3, fun j hj => ?_⟩
    by_contra hja
    by_cases hjb : j = probeIndex k2 e
    · rw [hjb, ht3b] at hj
      exact not_slotMatches_newEntry (fun h => hne h.symm) hj
    · rw [ht3o j hja hjb] at hj
      exact not_slotMatches_init j k1 hj
  have hpass3 : ∀ j, j < e → Passes t3 k2 j := by
    intro j hj
    unfold Passes
    rw [hcoll j hj, hslot3]
    exact ⟨by simp [newEntry], not_slotMatches_newEntry hne⟩
  have hmatch3b : slotMatches (t3 (probeIndex k2 e)) k2 := by
    rw [ht3b]; exact slotMatches_newEntry_self k2 v2
  have h4 := deleteEntry_hit (by omega) hpass3 hmatch3b
  generalize ht4 : setSlot t3 (probeIndex k2 e) deletedEntry = t4 at h4
  have habsent : ∀ i, ¬ slotMatches (t4 i) k2 := by
    intro i hi
    by_cases hib : i = probeIndex k2 e
    · rw [← ht4, hib, setSlot_same] at hi
      exact not_slotMatches_deletedEntry k2 hi
    · rw [← ht4, setSlot_other _ _ hib] at hi
      by_cases hia : i = probeIndex k1 0
      · rw [hia, hslot3] at hi
        exact not_slotMatches_newEntry hne hi
      · rw [ht3o i hia hib] at hi
        exact not_slotMatches_init i k2 hi
  obtain ⟨p, _, hs4⟩ := @searchEntry_absent t4 k2
    (fun j _ => habsent _)
  obtain ⟨p', _, h5⟩ := @deleteEntry_absent t4 k2
    (fun j _ => habsent _)
  exact ⟨_, _, _, _, _, _, _, h1, h2, hs1, rfl, rfl, h3, rfl, honly3, hs3, h4, rfl,
    hs4, rfl, h5, rfl⟩

/-- C4 for `cat`/`gato`, `dog`/`perro` and `felino`. -/
theorem end_to_end_witness :
    cat ≠ dog ∧
    ∃ (r1 r2 r3 r4 r5 : OpResult) (s1 s2 : SearchResult),
      insertEntry initializeHashTable cat gato = some r1 ∧
      insertEntry r1.hashTable dog perro = some r2 ∧
      searchEntry r2.hashTable cat = some s1 ∧ s1.ret = 1 ∧ s1.translation = some gato ∧
      insertEntry r2.hashTable cat felino = some r3 ∧ r3.ret = 1 ∧
      HoldsOnly r3.hashTable cat (probeIndex cat 0) (gato ++ [59] ++ felino) ∧
      searchEntry r3.hashTable cat = some ⟨1, some (gato ++ [59] ++ felino), 1⟩ ∧
      deleteEntry r3.hashTable dog = some r4 ∧ r4.ret = 1 ∧
      searchEntry r4.hashTable dog = some s2 ∧ s2.ret = 0 ∧
      deleteEntry r4.hashTable dog = some r5 ∧ r5.ret = 0 :=
  ⟨by decide, end_to_end cat dog gato perro felino (by decide)⟩

/-! ## Delete removes the key -/

/-- C5. On a table in which no two slots are `FILLED` with the same key, when
`deleteEntry(k)` returns 1 no slot is `FILLED` with `k` afterwards,
`searchEntry(k)` returns 0, and a second `deleteEntry(k)` returns 0 and leaves
the table as it is. -/
theorem delete_removes_key (hashTable : Table) (k : CStr)
    (huniq : ∀ i j w, i < TABLE_SIZE → j < TABLE_SIZE →
      slotMatches (hashTable i) w → slotMatches (hashTable j) w → i = j)
    (r : OpResult) (h : deleteEntry hashTable k = some r) (hret : r.ret = 1) :
    (∀ i, i < TABLE_SIZE → ¬ slotMatches (r.hashTable i) k) ∧
    (∃ p, searchEntry r.hashTable k = some ⟨0, none, p⟩) ∧
    (∃ p, deleteEntry r.hashTable k = some ⟨0, p, r.hashTable⟩) := by
  rcases deleteEntry_cases h with ⟨m, _, _, hmatch, rfl⟩ | ⟨m, _, _, _, rfl⟩ | ⟨_, rfl⟩
  · have habsent : ∀ i, i < TABLE_SIZE →
        ¬ slotMatches (setSlot hashTable (probeIndex k m) deletedEntry i) k := by
      intro i hi hm
      by_cases hidx : i = probeIndex k m
      · rw [hidx, setSlot_same] at hm
        exact not_slotMatches_deletedEntry k hm
      · rw [setSlot_other _ _ hidx] at hm
        exact hidx (huniq i _ k hi (probeIndex_lt k m) hm hmatch)
    obtain ⟨p, _, hs⟩ := @searchEntry_absent (setSlot hashTable (probeIndex k m) deletedEntry) k
      (fun j _ => habsent _ (probeIndex_lt k j))
    obtain ⟨p', _, hd⟩ := @deleteEntry_absent (setSlot hashTable (probeIndex k m) deletedEntry) k
      (fun j _ => habsent _ (probeIndex_lt k j))
    exact ⟨habsent, ⟨p, hs⟩, ⟨p', hd⟩⟩
  · simp at hret
  · simp at hret

theorem deleteEntry_catDog_dog :
    deleteEntry catDogTable dog
      = some ⟨1, 1, setSlot catDogTable (probeIndex dog 0) deletedEntry⟩ :=
  deleteEntry_hit (by decide) (fun j hj => absurd hj (Nat.not_lt_zero j)) (by decide)

/-- C5 for `deleteEntry(dog)` on the table holding `cat` and `dog`. -/
theorem delete_removes_key_witness :
    deleteEntry catDogTable dog
      = some ⟨1, 1, setSlot catDogTable (probeIndex dog 0) deletedEntry⟩ ∧
    (∀ i, i < TABLE_SIZE →
      ¬ slotMatches (setSlot catDogTable (probeIndex dog 0) deletedEntry i) dog) ∧
    (∃ p, searchEntry (setSlot catDogTable (probeIndex dog 0) deletedEntry) dog
      = some ⟨0, none, p⟩) ∧
    (∃ p, deleteEntry (setSlot catDogTable (probeIndex dog 0) deletedEntry) dog
      = some ⟨0, p, setSlot catDogTable (probeIndex dog 0) deletedEntry⟩) :=
  ⟨deleteEntry_catDog_dog,
    delete_removes_key catDogTable dog
      (fun i j w _ _ hi hj => (reachable_inv catDogTable_reachable).unique i j w hi hj)
      ⟨1, 1, setSlot catDogTable (probeIndex dog 0) deletedEntry⟩
      deleteEntry_catDog_dog rfl⟩

/-! ## Tombstone reuse -/

theorem probeIndex_add_size (word : CStr) (i : Nat) :
    probeIndex word (i + TABLE_SIZE) = probeIndex word i := by
  unfold probeIndex
  rw [Nat.add_mul, ← Nat.add_assoc, Nat.add_mul_mod_self_left]

/-- An `EMPTY` slot behind slots that are all passed over lies at a depth
below `TABLE_SIZE`. -/
theorem empty_depth_lt {hashTable : Table} {word : CStr} {e : Nat}
    (he : (hashTable (probeIndex word e)).status = .EMPTY)
    (hpass : ∀ i, i < e → Passes hashTable word i) : e < TABLE_SIZE := by
  by_contra hge
  obtain ⟨e', rfl⟩ : ∃ e', e = e' + TABLE_SIZE := ⟨e - TABLE_SIZE, by omega⟩
  rw [probeIndex_add_size] at he
  have hlt : e' < e' + TABLE_SIZE := by unfold TABLE_SIZE; omega
  exact (hpass e' hlt).1 he

/-- C6. When, on the probe sequence of `k`, the first `EMPTY` slot lies at
depth `e` behind slots none of which is `FILLED` with `k`, and the first
`DELETED` slot lies at a depth `d < e`, `insertEntry(k, v)` returns 2, writes
`{k, v, FILLED}` into that `DELETED` slot, leaves the `EMPTY` slot as it is,
and reports the probe count 3, whatever `d` is. -/
theorem tombstone_reuse (hashTable : Table) (k v : CStr) (d e : Nat) (hde : d < e)
    (hempty : (hashTable (probeIndex k e)).status = .EMPTY)
    (hbefore : ∀ i, i < e →
      (hashTable (probeIndex k i)).status ≠ .EMPTY ∧
      ¬ ((hashTable (probeIndex k i)).status = .FILLED ∧
          (hashTable (probeIndex k i)).word = some k))
    (hdel : (hashTable (probeIndex k d)).status = .DELETED)
    (hfirst : ∀ j, j < d → (hashTable (probeIndex k j)).status ≠ .DELETED) :
    ∃ r, insertEntry hashTable k v = some r ∧ r.ret = 2 ∧ r.probeCount = 3 ∧
      r.hashTable (probeIndex k d) = newEntry k v ∧
      r.hashTable (probeIndex k e) = hashTable (probeIndex k e) ∧
      (r.hashTable (probeIndex k e)).status = .EMPTY := by
  have helt : e < TABLE_SIZE := empty_depth_lt hempty hbefore
  have hins := @insertEntry_reuse hashTable k v d e
    hde (by omega) hbefore (fun _ => hempty) hdel hfirst
  have hne : probeIndex k e ≠ probeIndex k d := by
    intro heq
    rw [heq, hdel] at hempty
    exact absurd hempty (by decide)
  refine ⟨_, hins, rfl, rfl, setSlot_same _ _ _, setSlot_other _ _ hne, ?_⟩
  show (setSlot hashTable (probeIndex k d) (newEntry k v) (probeIndex k e)).status = .EMPTY
  rw [setSlot_other _ _ hne]
  exact hempty

/-- C6 on the table in which `cat` was inserted and deleted: the tombstone is
at depth 1, the reported probe count is 3. -/
theorem tombstone_reuse_witness :
    (tombstoneTable (probeIndex cat 0)).status = .DELETED ∧
    (tombstoneTable (probeIndex cat 1)).status = .EMPTY ∧
    ∃ r, insertEntry tombstoneTable cat felino = some r ∧ r.ret = 2 ∧ r.probeCount = 3 ∧
      r.hashTable (probeIndex cat 0) = newEntry cat felino ∧
      r.hashTable (probeIndex cat 1) = tombstoneTable (probeIndex cat 1) ∧
      (r.hashTable (probeIndex cat 1)).status = .EMPTY :=
  ⟨by decide, by decide,
    tombstone_reuse tombstoneTable cat felino 0 1 (by decide) (by decide) (by decide)
      (by decide) (by decide)⟩

/-! ## The cap of 10 probes -/

/-- C7. When the first 10 slots of the probe sequence of `k` are all neither
`EMPTY` nor `FILLED` with `k`, `searchEntry(k)` returns 0 with probe count 10
and `deleteEntry(k)` returns 0 with probe count 10 and the table unchanged,
whatever the later slots of the sequence hold. -/
theorem probe_cap (hashTable : Table) (k : CStr)
    (h : ∀ i, i < 10 →
      (hashTable (probeIndex k i)).status ≠ .EMPTY ∧
      ¬ ((hashTable (probeIndex k i)).status = .FILLED ∧
          (hashTable (probeIndex k i)).word = some k)) :
    searchEntry hashTable k = some ⟨0, none, 10⟩ ∧
    deleteEntry hashTable k = some ⟨0, 10, hashTable⟩ :=
  ⟨searchEntry_miss_cap h, deleteEntry_miss_cap h⟩

/-- C7 on a table that holds `cat` at probe depth 12 of its sequence. -/
theorem probe_cap_witness :
    deepTable (probeIndex cat 11) = newEntry cat gato ∧
    searchEntry deepTable cat = some ⟨0, none, 10⟩ ∧
    deleteEntry deepTable cat = some ⟨0, 10, deepTable⟩ :=
  ⟨by decide, probe_cap deepTable cat (by decide)⟩

/-! ## Probe count on a miss -/

theorem searchLoopTraced_fst (hashTable : Table) (word : CStr) (step cap : Nat) :
    ∀ fuel index probes,
      (searchLoopTraced hashTable word step cap fuel index probes).map Prod.fst
        = searchLoop hashTable word step cap fuel index probes := by
  intro fuel
  induction fuel with
  | zero => intro index probes; rfl
  | succ fuel ih =>
    intro index probes
    unfold searchLoopTraced searchLoop
    by_cases hc : probes ≤ cap
    · by_cases he : (hashTable index).status = .EMPTY
      · simp [hc, he]
      · by_cases hm : slotMatches (hashTable index) word
        · simp [hc, he, hm]
        · simp only [hc, he, hm, if_true, if_false]
          rw [← ih, Option.map_map]
          rfl
    · simp [hc]

theorem deleteLoopTraced_eq (hashTable : Table) (word : CStr) (step cap : Nat) :
    ∀ fuel index probes,
      deleteLoopTraced hashTable word step cap fuel index probes
        = searchLoopTraced hashTable word step cap fuel index probes := by
  intro fuel
  induction fuel with
  | zero => intro index probes; rfl
  | succ fuel ih =>
    intro index probes
    unfold deleteLoopTraced searchLoopTraced
    rw [ih]

theorem searchLoopTraced_eq_stop (hashTable : Table) (word : CStr) (cap m : Nat)
    (h : FirstStop hashTable word cap m) :
    ∀ fuel i, i ≤ m → cap < fuel + i →
      searchLoopTraced hashTable word (hash2 word) cap fuel (probeIndex word i) (i + 1)
        = some (lookupStop hashTable word cap m,
            (List.range' i (min (m + 1) cap - i)).map (probeIndex word)) := by
  obtain ⟨hm, hpass, hstop⟩ := h
  intro fuel
  induction fuel with
  | zero => intro i hi hf; omega
  | succ fuel ih =>
    intro i hi hf
    unfold searchLoopTraced
    rcases Nat.eq_or_lt_of_le hi with heq | hlt
    · subst heq
      by_cases hc : i < cap
      · have hnp := hstop hc
        unfold Passes at hnp
        have h1 : i + 1 ≤ cap := hc
        have hn : min (i + 1) cap - i = 1 := by omega
        rw [hn]
        by_cases he : (hashTable (probeIndex word i)).status = .EMPTY
        · simp [lookupStop, hc, h1, he, List.range']
        · have hmatch : slotMatches (hashTable (probeIndex word i)) word := by
            by_contra hcon; exact hnp ⟨he, hcon⟩
          simp [lookupStop, hc, h1, he, hmatch, List.range']
      · have h1 : ¬ (i + 1 ≤ cap) := by omega
        have hn : min (i + 1) cap - i = 0 := by omega
        rw [hn]
        simp [lookupStop, hc, h1]
    · have hp := hpass i hlt
      unfold Passes at hp
      have h1 : i + 1 ≤ cap := by omega
      have hn : min (m + 1) cap - i = (min (m + 1) cap - (i + 1)) + 1 := by omega
      simp only [h1, if_true, hp.1, hp.2, if_false]
      rw [probeIndex_succ, ih (i + 1) hlt (by omega), hn, List.range'_succ]
      rfl

theorem searchVisited_of_firstStop {hashTable : Table} {word : CStr} {m : Nat}
    (h : FirstStop hashTable word 10 m) :
    searchVisited hashTable word
      = some ((List.range' 0 (min (m + 1) 10)).map (probeIndex word)) := by
  unfold searchVisited
  rw [← probeIndex_zero]
  rw [searchLoopTraced_eq_stop hashTable word 10 m h TABLE_SIZE 0 (Nat.zero_le m)
    (by unfold TABLE_SIZE; omega)]
  rfl

theorem deleteVisited_eq (hashTable : Table) (word : CStr) :
    deleteVisited hashTable word = searchVisited hashTable word := by
  unfold deleteVisited searchVisited
  rw [deleteLoopTraced_eq]

theorem nonEmptyCount_passes {hashTable : Table} {word : CStr} {n : Nat}
    (hpass : ∀ j, j < n → Passes hashTable word j) :
    nonEmptyCount hashTable ((List.range' 0 n).map (probeIndex word)) = n := by
  unfold nonEmptyCount
  rw [List.filter_eq_self.2]
  · simp
  · intro a ha
    obtain ⟨j, hj, rfl⟩ := List.mem_map.1 ha
    have hjn : j < n := by
      have := List.mem_range'_1.1 hj
      omega
    simpa using (hpass j hjn).1

theorem nonEmptyCount_empty_end {hashTable : Table} {word : CStr} {m : Nat}
    (hpass : ∀ j, j < m → Passes hashTable word j)
    (he : (hashTable (probeIndex word m)).status = .EMPTY) :
    nonEmptyCount hashTable ((List.range' 0 (m + 1)).map (probeIndex word)) = m := by
  have h := nonEmptyCount_passes hpass
  unfold nonEmptyCount at h ⊢
  rw [List.range'_1_concat, List.map_append, List.filter_append, List.length_append, h]
  simp [he]

/-- C8 as stated fails: on the initial table `searchEntry(cat)` examines one
slot, the `EMPTY` slot that ends the walk, and reports the probe count 0. -/
theorem miss_probe_count_counterexample :
    ∃ r visited, searchEntry initializeHashTable cat = some r ∧ r.ret = 0 ∧
      searchVisited initializeHashTable cat = some visited ∧
      r.probeCount ≠ visited.length :=
  ⟨⟨0, none, 0⟩, [probeIndex cat 0], by decide, rfl, by decide, by decide⟩

/-- C8, amended. When `searchEntry`, or `deleteEntry`, returns 0, the probe
count it reports is the number of slots it examined that were not `EMPTY`
(the `EMPTY` slot that ended the walk, when one did, is not counted), and it is
at most 10. -/
theorem miss_probe_count (hashTable : Table) (k : CStr) (rs : SearchResult) (rd : OpResult)
    (hs : searchEntry hashTable k = some rs) (hd : deleteEntry hashTable k = some rd) :
    (rs.ret = 0 → ∃ visited, searchVisited hashTable k = some visited ∧
      rs.probeCount = nonEmptyCount hashTable visited ∧ rs.probeCount ≤ 10) ∧
    (rd.ret = 0 → ∃ visited, deleteVisited hashTable k = some visited ∧
      rd.probeCount = nonEmptyCount hashTable visited ∧ rd.probeCount ≤ 10) := by
  rw [deleteVisited_eq]
  rcases lookup_cases hashTable k with ⟨m, hm, hpass, hmatch, hstop, hw⟩ |
    ⟨m, hm, hpass, he, hstop, hw⟩ | ⟨hpass, hstop, hw⟩
  · rw [searchEntry_of_firstStop hstop, hw] at hs
    rw [deleteEntry_of_firstStop hstop, hw] at hd
    have hs' := (Option.some.inj hs).symm
    have hd' := (Option.some.inj hd).symm
    subst hs' hd'
    exact ⟨fun h => by simp [searchFinish] at h, fun h => by simp [deleteFinish] at h⟩
  · rw [searchEntry_of_firstStop hstop, hw] at hs
    rw [deleteEntry_of_firstStop hstop, hw] at hd
    have hs' := (Option.some.inj hs).symm
    have hd' := (Option.some.inj hd).symm
    subst hs' hd'
    have hv := searchVisited_of_firstStop hstop
    have hmin : min (m + 1) 10 = m + 1 := by omega
    rw [hmin] at hv
    have hcount := nonEmptyCount_empty_end hpass he
    exact ⟨fun _ => ⟨_, hv, by simp [searchFinish, hcount], by simp [searchFinish]; omega⟩,
      fun _ => ⟨_, hv, by simp [deleteFinish, hcount], by simp [deleteFinish]; omega⟩⟩
  · rw [searchEntry_of_firstStop hstop, hw] at hs
    rw [deleteEntry_of_firstStop hstop, hw] at hd
    have hs' := (Option.some.inj hs).symm
    have hd' := (Option.some.inj hd).symm
    subst hs' hd'
    have hv := searchVisited_of_firstStop hstop
    have hmin : min (10 + 1) 10 = 10 := by omega
    rw [hmin] at hv
    have hcount := nonEmptyCount_passes hpass
    exact ⟨fun _ => ⟨_, hv, by simp [searchFinish, hcount], by simp [searchFinish]⟩,
      fun _ => ⟨_, hv, by simp [deleteFinish, hcount], by simp [deleteFinish]⟩⟩

/-- C8, amended, on the table holding `cat` and `dog`, for the absent key
`felino`. -/
theorem miss_probe_count_witness :
    searchEntry catDogTable felino = some ⟨0, none, 0⟩ ∧
    deleteEntry catDogTable felino = some ⟨0, 0, catDogTable⟩ ∧
    (∃ visited, searchVisited catDogTable felino = some visited ∧
      0 = nonEmptyCount catDogTable visited ∧ 0 ≤ 10) ∧
    (∃ visited, deleteVisited catDogTable felino = some visited ∧
      0 = nonEmptyCount catDogTable visited ∧ 0 ≤ 10) :=
  have hs : searchEntry catDogTable felino = some ⟨0, none, 0⟩ := by decide
  have hd : deleteEntry catDogTable felino = some ⟨0, 0, catDogTable⟩ :=
    deleteEntry_miss_empty (by decide) (fun j hj => absurd hj (Nat.not_lt_zero j)) (by decide)
  have h := miss_probe_count catDogTable felino ⟨0, none, 0⟩ ⟨0, 0, catDogTable⟩ hs hd
  ⟨hs, hd, h.1 rfl, h.2 rfl⟩

/-! ## Table-full failure -/

/-- The function `insertEntry` returns 0 exactly when the 16000 slots its loop examines,
those at the depths 1 to `TABLE_SIZE - 1` of the probe sequence, are all
passed over and none of them is `DELETED`. -/
theorem insertEntry_fails_iff (hashTable : Table) (word translation : CStr) :
    (∃ r, insertEntry hashTable word translation = some r ∧ r.ret = 0) ↔
      ((∀ j, j < TABLE_SIZE - 1 → Passes hashTable word j) ∧
        ∀ j, j < TABLE_SIZE - 1 → (hashTable (probeIndex word j)).status ≠ .DELETED) := by
  constructor
  · rintro ⟨r, hr, hret⟩
    rcases insertEntry_cases hr with ⟨m, _, _, _, rfl⟩ | ⟨m, _, _, _, _, rfl⟩ |
      ⟨d, m, _, _, _, _, _, _, rfl⟩ | ⟨hpass, hnd, rfl⟩
    · simp at hret
    · simp at hret
    · simp at hret
    · exact ⟨hpass, hnd⟩
  · rintro ⟨hpass, hnd⟩
    exact ⟨_, insertEntry_full translation hpass hnd, rfl⟩

theorem almostFullTable_other {i : Nat} (h : i ≠ probeIndex cat 16000) :
    almostFullTable i = newEntry [i % 255 + 1, i / 255 + 1] [120] := by
  simp [almostFullTable, h]

theorem almostFullTable_walk (j : Nat) (hj : j < TABLE_SIZE - 1) :
    Passes almostFullTable cat j ∧
      (almostFullTable (probeIndex cat j)).status ≠ .DELETED := by
  have hne : probeIndex cat j ≠ probeIndex cat 16000 := by
    intro heq
    have := probeIndex_inj cat (i := j) (j := 16000) (by omega) (by decide) heq
    unfold TABLE_SIZE at hj
    omega
  unfold Passes
  rw [almostFullTable_other hne]
  refine ⟨⟨by simp [newEntry], ?_⟩, by simp [newEntry]⟩
  intro hm
  have := hm.2
  simp [newEntry, cat] at this

/-- C9, the code at the failing input. On `almostFullTable` the slot at depth
16001 of the probe sequence of `cat` is `EMPTY`, so the table is not
saturated, and `insertEntry(cat, gato)` returns 0 with probe count 16001,
leaving the table as it is: the loop examines 16000 slots only. -/
theorem insert_fails_before_saturation :
    probeIndex cat 16000 < TABLE_SIZE ∧
    (almostFullTable (probeIndex cat 16000)).status = .EMPTY ∧
    insertEntry almostFullTable cat gato = some ⟨0, 16001, almostFullTable⟩ :=
  ⟨by decide, by decide,
    insertEntry_full gato (fun j hj => (almostFullTable_walk j hj).1)
      (fun j hj => (almostFullTable_walk j hj).2)⟩

/-! ## One probe sequence for the three operations -/

theorem insertWalk_of_firstStop {hashTable : Table} {word : CStr} (translation : CStr)
    {m : Nat} (h : FirstStop hashTable word (TABLE_SIZE - 1) m) :
    insertWalk hashTable word translation
      = some (insertStop hashTable word translation m) := by
  unfold insertWalk
  rw [← probeIndex_zero]
  have h0 := insertLoop_eq_stop hashTable word translation m h TABLE_SIZE 0 (Nat.zero_le m)
    (by unfold TABLE_SIZE; omega)
  simp only [firstDeletedUpTo, Nat.zero_add] at h0
  exact h0

/-- When the loop of `insertEntry` is left with `firstDeletedIndex == -1`, no
slot before the stopping depth is `DELETED`. -/
theorem firstDeleted_none_of_walk {hashTable : Table} {word translation : CStr}
    {index probes m : Nat}
    (hw : insertWalk hashTable word translation = some (.left index probes none))
    (h : FirstStop hashTable word (TABLE_SIZE - 1) m) :
    firstDeletedUpTo hashTable word m = none := by
  rw [insertWalk_of_firstStop translation h] at hw
  have hw' := Option.some.inj hw
  unfold insertStop at hw'
  by_cases hc : m < TABLE_SIZE - 1
  · by_cases he : (hashTable (probeIndex word m)).status = .EMPTY
    · rw [if_pos hc, if_pos he] at hw'
      injection hw'
    · rw [if_pos hc, if_neg he] at hw'
      cases hw'
  · rw [if_neg hc] at hw'
    injection hw'

/-- C10. When `insertEntry(k, v)` returns 1, or returns 2 having left its loop
with `firstDeletedIndex == -1` (an insertion into an `EMPTY` slot, no
tombstone passed), and the probe count `p` it reports is at most 10, then on
the table it leaves `searchEntry(k)` returns 1 with probe count `p` and the
translation just stored (the merged one after an update, `v` after an
insertion), and `deleteEntry(k)` returns 1 with probe count `p`. -/
theorem probe_determinism (hashTable : Table) (k v : CStr) (r : OpResult)
    (h : insertEntry hashTable k v = some r) (hp : r.probeCount ≤ 10)
    (hkind : r.ret = 1 ∨
      (r.ret = 2 ∧ ∃ index probes, insertWalk hashTable k v = some (.left index probes none))) :
    searchEntry r.hashTable k
      = some ⟨1,
          if r.ret = 1 then
            (hashTable (probeIndex k (r.probeCount - 1))).translation.map
              (fun existing => appendTranslation existing v)
          else some v,
          r.probeCount⟩ ∧
    ∃ r', deleteEntry r.hashTable k = some r' ∧ r'.ret = 1 ∧ r'.probeCount = r.probeCount := by
  rcases insertEntry_cases h with ⟨m, hm, hpass, hmatch, rfl⟩ | ⟨m, hm, hpass, hnd, he, rfl⟩ |
    ⟨d, m, hdm, hm, hpass, he, hdel, hfirst, rfl⟩ | ⟨_, _, rfl⟩
  · have hm10 : m < 10 := by
      have hp' : m + 1 ≤ 10 := hp
      omega
    have hpass' : ∀ j, j < m → Passes (setSlot hashTable (probeIndex k m)
        (mergedEntry (hashTable (probeIndex k m)) v)) k j := by
      intro j hj
      rw [passes_setSlot_merged]
      exact hpass j hj
    have hmatch' : slotMatches (setSlot hashTable (probeIndex k m)
        (mergedEntry (hashTable (probeIndex k m)) v) (probeIndex k m)) k := by
      rw [slotMatches_setSlot_merged]
      exact hmatch
    have hs := searchEntry_hit hm10 hpass' hmatch'
    rw [setSlot_same] at hs
    exact ⟨by simpa [mergedEntry] using hs, _, deleteEntry_hit hm10 hpass' hmatch', rfl, rfl⟩
  · have hm10 : m < 10 := by
      have hp' : m + 1 ≤ 10 := hp
      omega
    have hpass' : ∀ j, j < m →
        Passes (setSlot hashTable (probeIndex k m) (newEntry k v)) k j := by
      intro j hj
      have hne : probeIndex k j ≠ probeIndex k m := by
        intro heq
        exact (hpass j hj).1 (heq ▸ he)
      rw [passes_setSlot_other hashTable _ hne]
      exact hpass j hj
    have hmatch' : slotMatches
        (setSlot hashTable (probeIndex k m) (newEntry k v) (probeIndex k m)) k := by
      rw [setSlot_same]
      exact slotMatches_newEntry_self k v
    have hs := searchEntry_hit hm10 hpass' hmatch'
    rw [setSlot_same] at hs
    exact ⟨by simpa [newEntry] using hs, _, deleteEntry_hit hm10 hpass' hmatch', rfl, rfl⟩
  · exfalso
    rcases hkind with h1 | ⟨_, index, probes, hw⟩
    · simp at h1
    · have hstop : FirstStop hashTable k (TABLE_SIZE - 1) m :=
        ⟨hm, hpass, fun hc hp' => hp'.1 (he hc)⟩
      have hnone := firstDeleted_none_of_walk hw hstop
      rw [firstDeletedUpTo_of_first hashTable k d m hdm hdel hfirst] at hnone
      cases hnone
  · exfalso
    rcases hkind with h1 | ⟨h2, _⟩
    · simp at h1
    · simp at h2

/-- C10 for `insertEntry(cat, gato)` on the initial table. -/
theorem probe_determinism_witness :
    insertEntry initializeHashTable cat gato = some ⟨2, 1, catTable⟩ ∧
    insertWalk initializeHashTable cat gato = some (.left (probeIndex cat 0) 1 none) ∧
    searchEntry catTable cat = some ⟨1, some gato, 1⟩ ∧
    ∃ r', deleteEntry catTable cat = some r' ∧ r'.ret = 1 ∧ r'.probeCount = 1 :=
  ⟨insertEntry_init_cat, rfl,
    probe_determinism initializeHashTable cat gato ⟨2, 1, catTable⟩ insertEntry_init_cat
      (by decide) (Or.inr ⟨rfl, probeIndex cat 0, 1, rfl⟩)⟩

/-! ## Frame of `deleteEntry` and of `insertEntry` -/

/-- C11. When `deleteEntry(k)` returns 1 with probe count `p`, the slot at
depth `p` of the probe sequence of `k` was `FILLED` with `k` and is
`{NULL, NULL, DELETED}` afterwards, no slot at a smaller depth was `EMPTY` or
held `k` (so `p` is the depth of the first match of the walk), and every other
slot is as before; when it returns 0 the table is as before.  It returns
nothing else. -/
theorem delete_frame (hashTable : Table) (k : CStr) (r : OpResult)
    (h : deleteEntry hashTable k = some r) :
    (r.ret = 1 ∨ r.ret = 0) ∧
    (r.ret = 1 →
      1 ≤ r.probeCount ∧ r.probeCount ≤ 10 ∧
      (hashTable (probeIndex k (r.probeCount - 1))).status = .FILLED ∧
      (hashTable (probeIndex k (r.probeCount - 1))).word = some k ∧
      r.hashTable (probeIndex k (r.probeCount - 1))
        = { word := none, translation := none, status := .DELETED } ∧
      (∀ j, j < r.probeCount - 1 →
        (hashTable (probeIndex k j)).status ≠ .EMPTY ∧
        ¬ slotMatches (hashTable (probeIndex k j)) k) ∧
      ∀ i, i ≠ probeIndex k (r.probeCount - 1) → r.hashTable i = hashTable i) ∧
    (r.ret = 0 → r.hashTable = hashTable) := by
  rcases deleteEntry_cases h with ⟨m, hm, hpass, hmatch, rfl⟩ | ⟨m, _, _, _, rfl⟩ | ⟨_, rfl⟩
  · refine ⟨Or.inl rfl, fun _ => ?_, fun h0 => by simp at h0⟩
    have hp : m + 1 - 1 = m := by omega
    simp only [hp]
    exact ⟨by omega, by omega, hmatch.1, hmatch.2, setSlot_same _ _ _, hpass,
      fun i hi => setSlot_other _ _ hi⟩
  · exact ⟨Or.inr rfl, fun h1 => by simp at h1, fun _ => rfl⟩
  · exact ⟨Or.inr rfl, fun h1 => by simp at h1, fun _ => rfl⟩

/-- C11 for `deleteEntry(dog)` on the table holding `cat` and `dog`. -/
theorem delete_frame_witness :
    deleteEntry catDogTable dog
      = some ⟨1, 1, setSlot catDogTable (probeIndex dog 0) deletedEntry⟩ ∧
    setSlot catDogTable (probeIndex dog 0) deletedEntry (probeIndex dog 0)
      = { word := none, translation := none, status := .DELETED } ∧
    ∀ i, i ≠ probeIndex dog 0 →
      setSlot catDogTable (probeIndex dog 0) deletedEntry i = catDogTable i :=
  have h := (delete_frame catDogTable dog
    ⟨1, 1, setSlot catDogTable (probeIndex dog 0) deletedEntry⟩ deleteEntry_catDog_dog).2.1 rfl
  ⟨deleteEntry_catDog_dog, h.2.2.2.2.1, h.2.2.2.2.2.2⟩

/-- C12. `insertEntry` changes at most one slot: when it returns 1, the slot
that held the key, whose translation becomes the merged one; when it returns
2, a slot that was not `FILLED`, which becomes `{word, translation, FILLED}`;
every other slot is as before.  When it returns 0 the table is as before.  It
returns nothing else. -/
theorem insert_frame (hashTable : Table) (k v : CStr) (r : OpResult)
    (h : insertEntry hashTable k v = some r) :
    (r.ret = 1 ∨ r.ret = 2 ∨ r.ret = 0) ∧
    (∃ s, s < TABLE_SIZE ∧ ∀ i, i ≠ s → r.hashTable i = hashTable i) ∧
    (r.ret = 1 → ∃ s, s < TABLE_SIZE ∧ slotMatches (hashTable s) k ∧
      r.hashTable s = mergedEntry (hashTable s) v ∧
      ∀ i, i ≠ s → r.hashTable i = hashTable i) ∧
    (r.ret = 2 → ∃ s, s < TABLE_SIZE ∧ (hashTable s).status ≠ .FILLED ∧
      r.hashTable s = newEntry k v ∧
      ∀ i, i ≠ s → r.hashTable i = hashTable i) ∧
    (r.ret = 0 → r.hashTable = hashTable) := by
  rcases insertEntry_cases h with ⟨m, _, _, hmatch, rfl⟩ | ⟨m, _, _, _, he, rfl⟩ |
    ⟨d, m, _, _, _, _, hdel, _, rfl⟩ | ⟨_, _, rfl⟩
  · refine ⟨Or.inl rfl, ⟨_, probeIndex_lt k m, fun i hi => setSlot_other _ _ hi⟩,
      fun _ => ⟨_, probeIndex_lt k m, hmatch, setSlot_same _ _ _,
        fun i hi => setSlot_other _ _ hi⟩,
      fun h2 => by simp at h2, fun h0 => by simp at h0⟩
  · refine ⟨Or.inr (Or.inl rfl), ⟨_, probeIndex_lt k m, fun i hi => setSlot_other _ _ hi⟩,
      fun h1 => by simp at h1,
      fun _ => ⟨_, probeIndex_lt k m, by rw [he]; decide, setSlot_same _ _ _,
        fun i hi => setSlot_other _ _ hi⟩,
      fun h0 => by simp at h0⟩
  · refine ⟨Or.inr (Or.inl rfl), ⟨_, probeIndex_lt k d, fun i hi => setSlot_other _ _ hi⟩,
      fun h1 => by simp at h1,
      fun _ => ⟨_, probeIndex_lt k d, by rw [hdel]; decide, setSlot_same _ _ _,
        fun i hi => setSlot_other _ _ hi⟩,
      fun h0 => by simp at h0⟩
  · exact ⟨Or.inr (Or.inr rfl), ⟨0, by decide, fun i _ => rfl⟩,
      fun h1 => by simp at h1, fun h2 => by simp at h2, fun _ => rfl⟩

/-- C12 for `insertEntry(cat, gato)` on the initial table. -/
theorem insert_frame_witness :
    insertEntry initializeHashTable cat gato = some ⟨2, 1, catTable⟩ ∧
    ∃ s, s < TABLE_SIZE ∧ (initializeHashTable s).status ≠ .FILLED ∧
      catTable s = newEntry cat gato ∧
      ∀ i, i ≠ s → catTable i = initializeHashTable i :=
  ⟨insertEntry_init_cat,
    (insert_frame initializeHashTable cat gato ⟨2, 1, catTable⟩
      insertEntry_init_cat).2.2.2.1 rfl⟩

/-! ## Statistics of the bulk load -/

theorem bulkCalls_returns (records : List (CStr × CStr)) :
    ∀ hashTable, ∃ p, bulkCalls hashTable records = some p := by
  induction records with
  | nil => intro hashTable; exact ⟨_, rfl⟩
  | cons rec rest ih =>
    intro hashTable
    obtain ⟨word, translation⟩ := rec
    obtain ⟨r, hr⟩ := insertEntry_returns hashTable word translation
    obtain ⟨p, hp⟩ := ih r.hashTable
    exact ⟨(p.1, (r.ret, r.probeCount) :: p.2), by simp [bulkCalls, hr, hp]⟩

theorem buildHashTable_eq_bulkCalls (records : List (CStr × CStr)) :
    ∀ hashTable s,
      buildHashTable hashTable records s
        = (bulkCalls hashTable records).map
            (fun p => (p.1, p.2.foldl (fun s rep => updateStats s rep.1 rep.2) s)) := by
  induction records with
  | nil => intro hashTable s; rfl
  | cons rec rest ih =>
    intro hashTable s
    obtain ⟨word, translation⟩ := rec
    unfold buildHashTable bulkCalls
    cases hr : insertEntry hashTable word translation with
    | none => rfl
    | some r =>
      simp only [ih]
      cases bulkCalls r.hashTable rest with
      | none => rfl
      | some p => rfl

theorem countedProbes_cons (result probeCount : Nat) (rest : List (Nat × Nat)) :
    countedProbes ((result, probeCount) :: rest)
      = if result ≠ 0 then probeCount :: countedProbes rest else countedProbes rest := by
  by_cases h : result = 0
  · simp [countedProbes, h]
  · simp [countedProbes, h]

theorem wrapInt_wrapInt_add (a b : Int) : wrapInt (wrapInt a + b) = wrapInt (a + b) := by
  unfold wrapInt; omega

theorem wrapInt_wrapInt (a : Int) : wrapInt (wrapInt a) = wrapInt a := by
  unfold wrapInt; omega

theorem wrapInt_of_le (x : Int) (h0 : 0 ≤ x) (h : x ≤ INT_MAX) : wrapInt x = x := by
  unfold INT_MAX at h
  unfold wrapInt; omega

theorem foldl_updateStats (reports : List (Nat × Nat)) :
    ∀ s0 : LoadStats,
      wrapInt s0.totalProbes = s0.totalProbes →
      wrapInt s0.objectCount = s0.objectCount →
      (∀ v, wrapInt (s0.probeDistribution v) = s0.probeDistribution v) →
      0 ≤ s0.maxProbes →
      (reports.foldl (fun s rep => updateStats s rep.1 rep.2) s0).totalProbes
          = wrapInt (s0.totalProbes + ((countedProbes reports).sum : Nat)) ∧
      (reports.foldl (fun s rep => updateStats s rep.1 rep.2) s0).maxProbes
          = max s0.maxProbes (((countedProbes reports).foldr max 0 : Nat) : Int) ∧
      (reports.foldl (fun s rep => updateStats s rep.1 rep.2) s0).objectCount
          = wrapInt (s0.objectCount + ((countedProbes reports).length : Nat)) ∧
      ∀ v, v ≤ 100 →
        (reports.foldl (fun s rep => updateStats s rep.1 rep.2) s0).probeDistribution v
          = wrapInt (s0.probeDistribution v + ((countedProbes reports).count v : Nat)) := by
  induction reports with
  | nil =>
    intro s0 ht ho hd hm
    refine ⟨?_, ?_, ?_, ?_⟩
    · simp [countedProbes, ht]
    · simp [countedProbes, hm]
    · simp [countedProbes, ho]
    · intro v _; simp [countedProbes, hd v]
  | cons rep rest ih =>
    intro s0 ht ho hd hm
    obtain ⟨result, probeCount⟩ := rep
    rw [List.foldl_cons, countedProbes_cons]
    by_cases hres : result = 0
    · have hu : updateStats s0 result probeCount = s0 := by simp [updateStats, hres]
      simp only [hu, hres, ne_eq, not_true_eq_false, if_false]
      exact ih s0 ht ho hd hm
    · have htp : (updateStats s0 result probeCount).totalProbes
          = wrapInt (s0.totalProbes + probeCount) := by simp [updateStats, hres]
      have hoc : (updateStats s0 result probeCount).objectCount
          = wrapInt (s0.objectCount + 1) := by simp [updateStats, hres]
      have hmx : (updateStats s0 result probeCount).maxProbes
          = max s0.maxProbes (probeCount : Int) := by
        simp only [updateStats, ne_eq, hres, not_false_eq_true, if_true]
        by_cases hgt : (probeCount : Int) > s0.maxProbes
        · simp only [hgt, if_true]; omega
        · simp only [hgt, if_false]; omega
      have hpd : ∀ v, (updateStats s0 result probeCount).probeDistribution v
          = if probeCount ≤ 100 ∧ v = probeCount then wrapInt (s0.probeDistribution v + 1)
            else s0.probeDistribution v := by
        intro v
        simp only [updateStats, ne_eq, hres, not_false_eq_true, if_true]
        by_cases hp : probeCount ≤ 100
        · by_cases hv : v = probeCount
          · simp [hp, hv]
          · simp [hp, hv]
        · simp [hp]
      obtain ⟨h1, h2, h3, h4⟩ := ih (updateStats s0 result probeCount)
        (by rw [htp, wrapInt_wrapInt]) (by rw [hoc, wrapInt_wrapInt])
        (by
          intro v
          rw [hpd v]
          by_cases hc : probeCount ≤ 100 ∧ v = probeCount
          · rw [if_pos hc, wrapInt_wrapInt]
          · rw [if_neg hc]; exact hd v)
        (by rw [hmx]; omega)
      simp only [ne_eq, hres, not_false_eq_true, if_true]
      refine ⟨?_, ?_, ?_, ?_⟩
      · rw [h1, htp, wrapInt_wrapInt_add, List.sum_cons]
        congr 1
        push_cast
        omega
      · rw [h2, hmx, List.foldr_cons]
        push_cast
        omega
      · rw [h3, hoc, wrapInt_wrapInt_add, List.length_cons]
        congr 1
        push_cast
        omega
      · intro v hv
        rw [h4 v hv, hpd v, List.count_cons]
        by_cases hc : probeCount ≤ 100 ∧ v = probeCount
        · have hpv : (probeCount == v) = true := by simp [hc.2]
          rw [if_pos hc, wrapInt_wrapInt_add, hpv]
          congr 1
          push_cast
          simp only [if_true]
          omega
        · have hne : ¬ probeCount = v := by
            intro heq
            exact hc ⟨by omega, heq.symm⟩
          have hpv : (probeCount == v) = false := by simp [hne]
          rw [if_neg hc, hpv]
          simp

theorem insertEntry_probeCount {hashTable : Table} {word translation : CStr} {r : OpResult}
    (h : insertEntry hashTable word translation = some r) :
    r.probeCount ≤ TABLE_SIZE ∧ (r.ret ≠ 0 → 1 ≤ r.probeCount) := by
  rcases insertEntry_cases h with ⟨m, hm, _, _, rfl⟩ | ⟨m, hm, _, _, _, rfl⟩ |
    ⟨d, m, _, _, _, _, _, _, rfl⟩ | ⟨_, _, rfl⟩
  · exact ⟨by show m + 1 ≤ TABLE_SIZE; omega, fun _ => by show 1 ≤ m + 1; omega⟩
  · exact ⟨by show m + 1 ≤ TABLE_SIZE; omega, fun _ => by show 1 ≤ m + 1; omega⟩
  · exact ⟨by show 3 ≤ TABLE_SIZE; decide, fun _ => by show 1 ≤ 3; decide⟩
  · exact ⟨Nat.le_refl _, fun h0 => absurd rfl h0⟩

/-- Every call of the bulk load reports at most `TABLE_SIZE` probes, at least
one when it does not return 0, and there is one report for each record. -/
theorem bulkCalls_reports (records : List (CStr × CStr)) :
    ∀ hashTable hashTable1 reports,
      bulkCalls hashTable records = some (hashTable1, reports) →
      reports.length = records.length ∧
      ∀ rep, rep ∈ reports → rep.2 ≤ TABLE_SIZE ∧ (rep.1 ≠ 0 → 1 ≤ rep.2) := by
  induction records with
  | nil =>
    intro hashTable hashTable1 reports h
    simp only [bulkCalls, Option.some.injEq, Prod.mk.injEq] at h
    obtain ⟨_, h2⟩ := h
    subst h2
    exact ⟨rfl, fun rep hrep => by simp at hrep⟩
  | cons rec rest ih =>
    intro hashTable hashTable1 reports h
    obtain ⟨word, translation⟩ := rec
    unfold bulkCalls at h
    cases hr : insertEntry hashTable word translation with
    | none => simp [hr] at h
    | some r =>
      cases hp : bulkCalls r.hashTable rest with
      | none => simp [hr, hp] at h
      | some p =>
        obtain ⟨t2, reps⟩ := p
        simp only [hr, hp, Option.map_some', Option.some.injEq, Prod.mk.injEq] at h
        obtain ⟨_, h2⟩ := h
        subst h2
        obtain ⟨hlen, hall⟩ := ih r.hashTable t2 reps hp
        refine ⟨by simp [hlen], ?_⟩
        intro rep hrep
        rcases List.mem_cons.1 hrep with heq | hmem
        · subst heq
          exact insertEntry_probeCount hr
        · exact hall rep hmem

theorem length_countedProbes_le_sum (reports : List (Nat × Nat))
    (h : ∀ rep, rep ∈ reports → rep.1 ≠ 0 → 1 ≤ rep.2) :
    (countedProbes reports).length ≤ (countedProbes reports).sum := by
  induction reports with
  | nil => simp [countedProbes]
  | cons rep rest ih =>
    obtain ⟨result, probeCount⟩ := rep
    have ih' := ih (fun rep hrep => h rep (List.mem_cons_of_mem _ hrep))
    rw [countedProbes_cons]
    by_cases hres : result = 0
    · simp only [hres, ne_eq, not_true_eq_false, if_false]; exact ih'
    · have hp := h (result, probeCount) (List.mem_cons_self _ _) hres
      simp only [ne_eq, hres, not_false_eq_true, if_true, List.length_cons, List.sum_cons]
      simp only at hp
      omega

theorem sum_snd_le (reports : List (Nat × Nat))
    (h : ∀ rep, rep ∈ reports → rep.2 ≤ TABLE_SIZE) :
    (reports.map Prod.snd).sum ≤ reports.length * TABLE_SIZE := by
  induction reports with
  | nil => simp
  | cons rep rest ih =>
    have ih' := ih (fun rep hrep => h rep (List.mem_cons_of_mem _ hrep))
    have hp := h rep (List.mem_cons_self _ _)
    simp only [List.map_cons, List.sum_cons, List.length_cons, Nat.succ_mul]
    omega

theorem holds_setSlot_of_not_filled {hashTable : Table} {index : Nat} (e : DictionaryEntry)
    (hs : (hashTable index).status ≠ .FILLED) {w : CStr} (h : Holds hashTable w) :
    Holds (setSlot hashTable index e) w := by
  obtain ⟨i, hi, hm⟩ := h
  have hne : i ≠ index := by
    intro heq
    exact hs (heq ▸ hm.1)
  exact ⟨i, hi, by rw [setSlot_other _ _ hne]; exact hm⟩

/-- An `insertEntry` call loses no key of the table, stores its own key
unless it returns 0, and reports `TABLE_SIZE` probes when it returns 0. -/
theorem insertEntry_holds {hashTable : Table} {word translation : CStr} {r : OpResult}
    (h : insertEntry hashTable word translation = some r) :
    (∀ w, Holds hashTable w → Holds r.hashTable w) ∧
    (r.ret ≠ 0 → Holds r.hashTable word) ∧
    (r.ret = 0 → r.probeCount = TABLE_SIZE) := by
  rcases insertEntry_cases h with ⟨m, _, _, hmatch, rfl⟩ | ⟨m, _, _, _, he, rfl⟩ |
    ⟨d, m, _, _, _, _, hdel, _, rfl⟩ | ⟨_, _, rfl⟩
  · refine ⟨?_, fun _ => ⟨_, probeIndex_lt word m,
      (slotMatches_setSlot_merged _ _ _ _ _).2 hmatch⟩, fun h0 => by simp at h0⟩
    rintro w ⟨i, hi, hm⟩
    exact ⟨i, hi, (slotMatches_setSlot_merged _ _ _ _ _).2 hm⟩
  · refine ⟨fun w hw => holds_setSlot_of_not_filled _ (by rw [he]; decide) hw,
      fun _ => ⟨_, probeIndex_lt word m, ?_⟩, fun h0 => by simp at h0⟩
    show slotMatches (setSlot hashTable _ _ _) word
    rw [setSlot_same]
    exact slotMatches_newEntry_self word translation
  · refine ⟨fun w hw => holds_setSlot_of_not_filled _ (by rw [hdel]; decide) hw,
      fun _ => ⟨_, probeIndex_lt word d, ?_⟩, fun h0 => by simp at h0⟩
    show slotMatches (setSlot hashTable _ _ _) word
    rw [setSlot_same]
    exact slotMatches_newEntry_self word translation
  · exact ⟨fun w hw => hw, fun h0 => absurd rfl h0, fun _ => rfl⟩

theorem bulkCalls_holds (records : List (CStr × CStr)) :
    ∀ hashTable hashTable1 reports,
      bulkCalls hashTable records = some (hashTable1, reports) →
      (∀ rep, rep ∈ reports → rep.1 = 0 → rep.2 = TABLE_SIZE) ∧
      ((∀ rep, rep ∈ reports → rep.1 ≠ 0) →
        (∀ w, Holds hashTable w → Holds hashTable1 w) ∧
        ∀ rec, rec ∈ records → Holds hashTable1 rec.1) := by
  induction records with
  | nil =>
    intro hashTable hashTable1 reports h
    simp only [bulkCalls, Option.some.injEq, Prod.mk.injEq] at h
    obtain ⟨h1, h2⟩ := h
    subst h1 h2
    exact ⟨fun rep hrep => by simp at hrep, fun _ => ⟨fun w hw => hw, fun rec hrec => by simp at hrec⟩⟩
  | cons rec rest ih =>
    intro hashTable hashTable1 reports h
    obtain ⟨word, translation⟩ := rec
    unfold bulkCalls at h
    cases hr : insertEntry hashTable word translation with
    | none => simp [hr] at h
    | some r =>
      cases hp : bulkCalls r.hashTable rest with
      | none => simp [hr, hp] at h
      | some p =>
        obtain ⟨t2, reps⟩ := p
        simp only [hr, hp, Option.map_some', Option.some.injEq, Prod.mk.injEq] at h
        obtain ⟨h1, h2⟩ := h
        subst h1 h2
        obtain ⟨hkeep, hstore, hfail⟩ := insertEntry_holds hr
        obtain ⟨ihfail, ihok⟩ := ih r.hashTable t2 reps hp
        refine ⟨?_, ?_⟩
        · intro rep hrep h0
          rcases List.mem_cons.1 hrep with heq | hmem
          · subst heq
            exact hfail h0
          · exact ihfail rep hmem h0
        · intro hall
          obtain ⟨ihkeep, ihrecs⟩ := ihok (fun rep hrep => hall rep (List.mem_cons_of_mem _ hrep))
          have hret : r.ret ≠ 0 := hall (r.ret, r.probeCount) (List.mem_cons_self _ _)
          refine ⟨fun w hw => ihkeep w (hkeep w hw), ?_⟩
          intro rec hrec
          rcases List.mem_cons.1 hrec with heq | hmem
          · subst heq
            exact ihkeep word (hstore hret)
          · exact ihrecs rec hmem

theorem recordKey_inj {i j : Nat} (h : recordKey i = recordKey j) : i = j := by
  simp only [recordKey, List.cons.injEq, and_true] at h
  omega

/-- The array has 16001 slots: it cannot hold 16002 different keys. -/
theorem not_all_held (hashTable : Table) :
    ¬ ∀ i, i < 16002 → Holds hashTable (recordKey i) := by
  intro h
  have hex : ∀ i, ∃ s, i < 16002 → s < TABLE_SIZE ∧ slotMatches (hashTable s) (recordKey i) := by
    intro i
    by_cases hi : i < 16002
    · obtain ⟨s, hs⟩ := h i hi
      exact ⟨s, fun _ => hs⟩
    · exact ⟨0, fun hlt => absurd hlt hi⟩
  choose f hf using hex
  have hcard : (Finset.range 16001).card < (Finset.range 16002).card := by simp
  have hmaps : ∀ a ∈ Finset.range 16002, f a ∈ Finset.range 16001 := by
    intro a ha
    have := (hf a (Finset.mem_range.1 ha)).1
    exact Finset.mem_range.2 this
  obtain ⟨x, hx, y, hy, hxy, hfxy⟩ :=
    Finset.exists_ne_map_eq_of_card_lt_of_maps_to hcard hmaps
  have h1 := (hf x (Finset.mem_range.1 hx)).2.2
  have h2 := (hf y (Finset.mem_range.1 hy)).2.2
  rw [hfxy, h2] at h1
  exact hxy (recordKey_inj (Option.some.inj h1)).symm

theorem sum_countedProbes_le (reports : List (Nat × Nat)) :
    (countedProbes reports).sum ≤ (reports.map Prod.snd).sum := by
  induction reports with
  | nil => simp [countedProbes]
  | cons rep rest ih =>
    obtain ⟨result, probeCount⟩ := rep
    rw [countedProbes_cons]
    by_cases h : result = 0
    · simp [h]; omega
    · simp [h]; omega

theorem sum_countedProbes_lt (reports : List (Nat × Nat))
    (h : ∃ rep, rep ∈ reports ∧ rep.1 = 0 ∧ 0 < rep.2) :
    (countedProbes reports).sum < (reports.map Prod.snd).sum := by
  induction reports with
  | nil => obtain ⟨rep, hrep, _⟩ := h; simp at hrep
  | cons rep rest ih =>
    obtain ⟨result, probeCount⟩ := rep
    obtain ⟨rep0, hmem, h0, hpos⟩ := h
    rw [countedProbes_cons]
    have hle := sum_countedProbes_le rest
    rcases List.mem_cons.1 hmem with heq | hrest
    · subst heq
      simp only at h0 hpos
      simp [h0]; omega
    · have hlt := ih ⟨rep0, hrest, h0, hpos⟩
      by_cases hres : result = 0
      · simp [hres]; omega
      · simp [hres]; omega

theorem stats_from_zero (reports : List (Nat × Nat)) :
    (reports.foldl (fun s rep => updateStats s rep.1 rep.2) zeroStats).totalProbes
        = wrapInt ((countedProbes reports).sum : Nat) ∧
    (reports.foldl (fun s rep => updateStats s rep.1 rep.2) zeroStats).maxProbes
        = (((countedProbes reports).foldr max 0 : Nat) : Int) ∧
    (reports.foldl (fun s rep => updateStats s rep.1 rep.2) zeroStats).objectCount
        = wrapInt ((countedProbes reports).length : Nat) ∧
    ∀ v, v ≤ 100 →
      (reports.foldl (fun s rep => updateStats s rep.1 rep.2) zeroStats).probeDistribution v
        = wrapInt ((countedProbes reports).count v : Nat) := by
  obtain ⟨h1, h2, h3, h4⟩ := foldl_updateStats reports zeroStats (by decide) (by decide)
    (fun _ => by show wrapInt 0 = 0; decide) (by decide)
  refine ⟨?_, ?_, ?_, ?_⟩
  · rw [h1]; simp [zeroStats]
  · rw [h2]; simp [zeroStats]
  · rw [h3]; simp [zeroStats]
  · intro v hv
    rw [h4 v hv]; simp [zeroStats]

/-- C13 as stated fails. Loading the 16002 records of `manyRecords`, whose
keys all differ, into the initial table, some `insertEntry` call returns 0
(the array has 16001 slots) and reports 16001 probes, which `buildHashTable`
leaves out: `totalProbes` is not the sum of the reported probe counts (a sum
that is far below `INT_MAX`). -/
theorem statistics_counterexample :
    ∃ hashTable1 s reports,
      buildHashTable initializeHashTable manyRecords zeroStats = some (hashTable1, s) ∧
      bulkCalls initializeHashTable manyRecords = some (hashTable1, reports) ∧
      (((reports.map Prod.snd).sum : Nat) : Int) ≤ INT_MAX ∧
      s.totalProbes ≠ (((reports.map Prod.snd).sum : Nat) : Int) := by
  obtain ⟨⟨hashTable1, reports⟩, hp⟩ := bulkCalls_returns manyRecords initializeHashTable
  obtain ⟨h1, _⟩ := stats_from_zero reports
  obtain ⟨hfail, hok⟩ := bulkCalls_holds manyRecords initializeHashTable hashTable1 reports hp
  obtain ⟨hlen, hrange⟩ :=
    bulkCalls_reports manyRecords initializeHashTable hashTable1 reports hp
  have hsum := sum_snd_le reports (fun rep hrep => (hrange rep hrep).1)
  have hlen' : reports.length = 16002 := by rw [hlen]; simp [manyRecords]
  rw [hlen'] at hsum
  have hbound : (reports.map Prod.snd).sum ≤ 2147483647 := by
    unfold TABLE_SIZE at hsum; omega
  have hex : ∃ rep, rep ∈ reports ∧ rep.1 = 0 := by
    by_contra hnone
    have hall : ∀ rep, rep ∈ reports → rep.1 ≠ 0 :=
      fun rep hrep h0 => hnone ⟨rep, hrep, h0⟩
    obtain ⟨_, hrecs⟩ := hok hall
    refine not_all_held hashTable1 (fun i hi => ?_)
    have hmem : (recordKey i, [120]) ∈ manyRecords :=
      List.mem_map.2 ⟨i, List.mem_range.2 hi, rfl⟩
    exact hrecs _ hmem
  obtain ⟨rep, hrep, h0⟩ := hex
  have hpos : 0 < rep.2 := by
    rw [hfail rep hrep h0]; decide
  have hlt := sum_countedProbes_lt reports ⟨rep, hrep, h0, hpos⟩
  refine ⟨hashTable1, reports.foldl (fun s rep => updateStats s rep.1 rep.2) zeroStats,
    reports, ?_, hp, ?_, ?_⟩
  · rw [buildHashTable_eq_bulkCalls, hp]; rfl
  · unfold INT_MAX; omega
  · rw [h1, wrapInt_of_le _ (by omega) (by unfold INT_MAX; omega)]
    omega

/-- C13, amended. For every table and every sequence of records loaded by
`buildHashTable` with all counters initially zero, where `p_1..p_n` are the
probe counts reported by those of the successive `insertEntry` calls that did
not return 0: `maxProbes` is the maximum of the `p_i`; `totalProbes` is the
sum of the `p_i`, `objectCount` is `n`, and `probeDistribution[v]`, for
`1 ≤ v ≤ 100`, is the number of `i` with `p_i = v`, each as an `int` holds it
(reduced by `wrapInt`); so when the sum of the `p_i` is at most `INT_MAX`,
`totalProbes` equals that sum, `objectCount` equals `n` and
`probeDistribution[v]` equals that number. -/
theorem statistics_correct (hashTable : Table) (records : List (CStr × CStr)) :
    ∃ hashTable1 s reports,
      buildHashTable hashTable records zeroStats = some (hashTable1, s) ∧
      bulkCalls hashTable records = some (hashTable1, reports) ∧
      s.maxProbes = (((countedProbes reports).foldr max 0 : Nat) : Int) ∧
      s.totalProbes = wrapInt ((countedProbes reports).sum : Nat) ∧
      s.objectCount = wrapInt ((countedProbes reports).length : Nat) ∧
      (∀ v, 1 ≤ v → v ≤ 100 →
        s.probeDistribution v = wrapInt ((countedProbes reports).count v : Nat)) ∧
      ((((countedProbes reports).sum : Nat) : Int) ≤ INT_MAX →
        s.totalProbes = (((countedProbes reports).sum : Nat) : Int) ∧
        s.objectCount = (((countedProbes reports).length : Nat) : Int) ∧
        ∀ v, 1 ≤ v → v ≤ 100 →
          s.probeDistribution v = (((countedProbes reports).count v : Nat) : Int)) := by
  obtain ⟨⟨hashTable1, reports⟩, hp⟩ := bulkCalls_returns records hashTable
  obtain ⟨h1, h2, h3, h4⟩ := stats_from_zero reports
  obtain ⟨_, hrange⟩ := bulkCalls_reports records hashTable hashTable1 reports hp
  have hlen := length_countedProbes_le_sum reports (fun rep hrep => (hrange rep hrep).2)
  refine ⟨hashTable1, reports.foldl (fun s rep => updateStats s rep.1 rep.2) zeroStats,
    reports, ?_, hp, h2, h1, h3, fun v _ hv => h4 v hv, ?_⟩
  · rw [buildHashTable_eq_bulkCalls, hp]; rfl
  · intro hbound
    refine ⟨?_, ?_, ?_⟩
    · rw [h1, wrapInt_of_le _ (by omega) hbound]
    · rw [h3, wrapInt_of_le _ (by omega) (by unfold INT_MAX at hbound ⊢; omega)]
    · intro v _ hv
      have hcount : (countedProbes reports).count v ≤ (countedProbes reports).length :=
        List.count_le_length _ _
      rw [h4 v hv, wrapInt_of_le _ (by omega) (by unfold INT_MAX at hbound ⊢; omega)]

/-- C13, amended, for the three records `cat`/`gato`, `dog`/`perro`,
`cat`/`felino` loaded into the initial table: the calls return 2, 2, 1 with
one probe each, `totalProbes` is 3, `maxProbes` is 1, `objectCount` is 3 and
`probeDistribution[1]` is 3. -/
theorem statistics_correct_witness :
    (bulkCalls initializeHashTable sampleRecords).map Prod.snd
      = some [(2, 1), (2, 1), (1, 1)] ∧
    ∃ hashTable1 s,
      buildHashTable initializeHashTable sampleRecords zeroStats = some (hashTable1, s) ∧
      s.totalProbes = 3 ∧ s.maxProbes = 1 ∧ s.objectCount = 3 ∧ s.probeDistribution 1 = 3 := by
  have hcalls : (bulkCalls initializeHashTable sampleRecords).map Prod.snd
      = some [(2, 1), (2, 1), (1, 1)] := by decide
  obtain ⟨hashTable1, s, reports, hb, hc, hmax, _, _, _, hexact⟩ :=
    statistics_correct initializeHashTable sampleRecords
  have hrep : reports = [(2, 1), (2, 1), (1, 1)] := by
    rw [hc] at hcalls
    exact Option.some.inj hcalls
  subst hrep
  have hcp : countedProbes [(2, 1), (2, 1), (1, 1)] = [1, 1, 1] := by decide
  rw [hcp] at hmax hexact
  obtain ⟨ht, ho, hd⟩ := hexact (by decide)
  refine ⟨hcalls, hashTable1, s, hb, ?_, ?_, ?_, ?_⟩
  · rw [ht]; decide
  · rw [hmax]; decide
  · rw [ho]; decide
  · rw [hd 1 (by decide) (by decide)]; decide

/-! ## Division by the operation count -/

/-- C14, the code at the failing input. A bulk load of no record leaves
`objectCount = 0` and `totalProbes = 0`, and `displayHashStatistics` then
evaluates `(double)totalProbes / objectCount` with the divisor 0; the
interactive phase with no operation evaluates no quotient. -/
theorem average_divides_by_zero :
    (buildHashTable initializeHashTable [] zeroStats).map
        (fun p => displayHashStatistics p.2.totalProbes p.2.objectCount)
      = some (Average.quotient 0 0) ∧
    ∀ totalUserProbes, userOperationsAverage totalUserProbes 0 = Average.notPrinted :=
  ⟨rfl, fun _ => rfl⟩

/-! ## Full cycle of the probe sequence -/

theorem insertLoopTraced_fst (hashTable : Table) (word translation : CStr) (step : Nat) :
    ∀ fuel index probes firstDeletedIndex,
      (insertLoopTraced hashTable word translation step fuel index probes
          firstDeletedIndex).map Prod.fst
        = insertLoop hashTable word translation step fuel index probes firstDeletedIndex := by
  intro fuel
  induction fuel with
  | zero => intro index probes fd; rfl
  | succ fuel ih =>
    intro index probes fd
    unfold insertLoopTraced insertLoop
    by_cases hc : probes < TABLE_SIZE
    · by_cases he : (hashTable index).status = .EMPTY
      · simp [hc, he]
      · by_cases hm : slotMatches (hashTable index) word
        · simp [hc, he, hm]
        · simp only [hc, he, hm, if_true, if_false]
          rw [← ih, Option.map_map]
          rfl
    · simp [hc]

theorem insertLoopTraced_eq_stop (hashTable : Table) (word translation : CStr) (m : Nat)
    (h : FirstStop hashTable word (TABLE_SIZE - 1) m) :
    ∀ fuel i, i ≤ m → TABLE_SIZE - 1 < fuel + i →
      insertLoopTraced hashTable word translation (hash2 word) fuel (probeIndex word i) (i + 1)
          (firstDeletedUpTo hashTable word i)
        = some (insertStop hashTable word translation m,
            (List.range' i (min (m + 1) (TABLE_SIZE - 1) - i)).map (probeIndex word)) := by
  obtain ⟨hm, hpass, hstop⟩ := h
  intro fuel
  induction fuel with
  | zero => intro i hi hf; omega
  | succ fuel ih =>
    intro i hi hf
    unfold insertLoopTraced
    rcases Nat.eq_or_lt_of_le hi with heq | hlt
    · subst heq
      by_cases hc : i < TABLE_SIZE - 1
      · have hnp := hstop hc
        unfold Passes at hnp
        have h1 : i + 1 < TABLE_SIZE := by omega
        have hn : min (i + 1) (TABLE_SIZE - 1) - i = 1 := by omega
        rw [hn]
        by_cases he : (hashTable (probeIndex word i)).status = .EMPTY
        · simp [insertStop, hc, h1, he, List.range']
        · have hmatch : slotMatches (hashTable (probeIndex word i)) word := by
            by_contra hcon; exact hnp ⟨he, hcon⟩
          simp [insertStop, hc, h1, he, hmatch, List.range']
      · have h1 : ¬ (i + 1 < TABLE_SIZE) := by omega
        have hn : min (i + 1) (TABLE_SIZE - 1) - i = 0 := by omega
        rw [hn]
        simp [insertStop, hc, h1]
    · have hp := hpass i hlt
      unfold Passes at hp
      have h1 : i + 1 < TABLE_SIZE := by omega
      have hn : min (m + 1) (TABLE_SIZE - 1) - i
          = (min (m + 1) (TABLE_SIZE - 1) - (i + 1)) + 1 := by omega
      simp only [h1, if_true, hp.1, hp.2, if_false]
      rw [probeIndex_succ, ← firstDeletedUpTo_succ, ih (i + 1) hlt (by omega), hn,
        List.range'_succ]
      rfl

theorem insertVisited_of_firstStop {hashTable : Table} {word : CStr} (translation : CStr)
    {m : Nat} (h : FirstStop hashTable word (TABLE_SIZE - 1) m) :
    insertVisited hashTable word translation
      = some ((List.range (min (m + 1) (TABLE_SIZE - 1))).map (probeIndex word)) := by
  unfold insertVisited
  rw [← probeIndex_zero]
  have h0 := insertLoopTraced_eq_stop hashTable word translation m h TABLE_SIZE 0
    (Nat.zero_le m) (by unfold TABLE_SIZE; omega)
  simp only [firstDeletedUpTo, Nat.zero_add] at h0
  rw [h0, List.range_eq_range']
  rfl

theorem walkIndex_eq_probeIndex (word : CStr) (i : Nat) :
    walkIndex word i = probeIndex word i := by
  induction i with
  | zero => rw [probeIndex_zero]; rfl
  | succ i ih =>
    show (walkIndex word i + hash2 word) % TABLE_SIZE = probeIndex word (i + 1)
    rw [ih, probeIndex_succ]

theorem probeIndex_surj (word : CStr) (s : Nat) (hs : s < TABLE_SIZE) :
    ∃ i, i < TABLE_SIZE ∧ probeIndex word i = s := by
  have hinj : Function.Injective
      (fun i : Fin TABLE_SIZE => (⟨probeIndex word i.1, probeIndex_lt word i.1⟩ : Fin TABLE_SIZE)) := by
    intro a b hab
    have h1 : probeIndex word a.1 = probeIndex word b.1 := congrArg Fin.val hab
    exact Fin.ext (probeIndex_inj word a.2 b.2 h1)
  obtain ⟨a, ha⟩ := Finite.surjective_of_injective hinj ⟨s, hs⟩
  exact ⟨a.1, a.2, congrArg Fin.val ha⟩

/-- C15. For every key, the `TABLE_SIZE` indices `idx_i`, `i < TABLE_SIZE`,
are pairwise distinct and cover every slot; the index computed by `i` rounds
of `index = (index + step) % TABLE_SIZE` is `idx_i`; and the slots the walks
of `insertEntry`, `searchEntry` and `deleteEntry` examine are, in order,
`idx_0, idx_1, ...` up to where the walk stops. -/
theorem full_cycle (k : CStr) :
    (∀ i j, i < TABLE_SIZE → j < TABLE_SIZE → probeIndex k i = probeIndex k j → i = j) ∧
    (∀ s, s < TABLE_SIZE → ∃ i, i < TABLE_SIZE ∧ probeIndex k i = s) ∧
    (∀ i, walkIndex k i = probeIndex k i) ∧
    (∀ hashTable v, ∃ n, n ≤ TABLE_SIZE - 1 ∧
      insertVisited hashTable k v = some ((List.range n).map (probeIndex k))) ∧
    (∀ hashTable, ∃ n, n ≤ 10 ∧
      searchVisited hashTable k = some ((List.range n).map (probeIndex k))) ∧
    (∀ hashTable, ∃ n, n ≤ 10 ∧
      deleteVisited hashTable k = some ((List.range n).map (probeIndex k))) := by
  refine ⟨fun i j hi hj h => probeIndex_inj k hi hj h, probeIndex_surj k,
    walkIndex_eq_probeIndex k, ?_, ?_, ?_⟩
  · intro hashTable v
    obtain ⟨m, hm⟩ := exists_firstStop hashTable k (TABLE_SIZE - 1)
    exact ⟨_, Nat.min_le_right _ _, insertVisited_of_firstStop v hm⟩
  · intro hashTable
    obtain ⟨m, hm⟩ := exists_firstStop hashTable k 10
    refine ⟨min (m + 1) 10, Nat.min_le_right _ _, ?_⟩
    rw [searchVisited_of_firstStop hm, List.range_eq_range']
  · intro hashTable
    obtain ⟨m, hm⟩ := exists_firstStop hashTable k 10
    refine ⟨min (m + 1) 10, Nat.min_le_right _ _, ?_⟩
    rw [deleteVisited_eq, searchVisited_of_firstStop hm, List.range_eq_range']

/-! ## Ranges of the hash pair and of the indices -/

theorem mem_map_probeIndex_lt (word : CStr) (n i : Nat)
    (h : i ∈ (List.range n).map (probeIndex word)) : i < TABLE_SIZE := by
  obtain ⟨j, _, rfl⟩ := List.mem_map.1 h
  exact probeIndex_lt word j

theorem setSlot_changed {hashTable : Table} {index i : Nat} {e : DictionaryEntry}
    (h : setSlot hashTable index e i ≠ hashTable i) : i = index := by
  by_contra hne
  exact h (setSlot_other hashTable e hne)

/-- C16. For every key, the empty one too, `hash2` lies in `[1, 16000]` and
the start index `hash1 % TABLE_SIZE` lies below 16001; every index at which
`insertEntry`, `searchEntry` or `deleteEntry` examines a slot, and every index
of a slot that `insertEntry` or `deleteEntry` changes, lies below 16001. -/
theorem hash_ranges (k : CStr) :
    1 ≤ hash2 k ∧ hash2 k ≤ 16000 ∧ hash1 k % TABLE_SIZE < 16001 ∧
    (∀ hashTable v visited, insertVisited hashTable k v = some visited →
      ∀ i, i ∈ visited → i < 16001) ∧
    (∀ hashTable visited, searchVisited hashTable k = some visited →
      ∀ i, i ∈ visited → i < 16001) ∧
    (∀ hashTable visited, deleteVisited hashTable k = some visited →
      ∀ i, i ∈ visited → i < 16001) ∧
    (∀ hashTable v r, insertEntry hashTable k v = some r →
      ∀ i, r.hashTable i ≠ hashTable i → i < 16001) ∧
    (∀ hashTable r, deleteEntry hashTable k = some r →
      ∀ i, r.hashTable i ≠ hashTable i → i < 16001) := by
  have hsearch : ∀ hashTable visited, searchVisited hashTable k = some visited →
      ∀ i, i ∈ visited → i < 16001 := by
    intro hashTable visited hv i hi
    obtain ⟨m, hm⟩ := exists_firstStop hashTable k 10
    rw [searchVisited_of_firstStop hm, ← List.range_eq_range'] at hv
    rw [← Option.some.inj hv] at hi
    exact mem_map_probeIndex_lt k _ i hi
  refine ⟨hash2_pos k, ?_, ?_, ?_, hsearch, ?_, ?_, ?_⟩
  · have := hash2_lt k
    unfold TABLE_SIZE at this
    omega
  · exact probeIndex_zero k ▸ probeIndex_lt k 0
  · intro hashTable v visited hv i hi
    obtain ⟨m, hm⟩ := exists_firstStop hashTable k (TABLE_SIZE - 1)
    rw [insertVisited_of_firstStop v hm] at hv
    rw [← Option.some.inj hv] at hi
    exact mem_map_probeIndex_lt k _ i hi
  · intro hashTable visited hv
    rw [deleteVisited_eq] at hv
    exact hsearch hashTable visited hv
  · intro hashTable v r hr i hi
    rcases insertEntry_cases hr with ⟨m, _, _, _, rfl⟩ | ⟨m, _, _, _, _, rfl⟩ |
      ⟨d, m, _, _, _, _, _, _, rfl⟩ | ⟨_, _, rfl⟩
    · exact setSlot_changed hi ▸ probeIndex_lt k m
    · exact setSlot_changed hi ▸ probeIndex_lt k m
    · exact setSlot_changed hi ▸ probeIndex_lt k d
    · exact absurd rfl hi
  · intro hashTable r hr i hi
    rcases deleteEntry_cases hr with ⟨m, _, _, _, rfl⟩ | ⟨m, _, _, _, rfl⟩ | ⟨_, rfl⟩
    · exact setSlot_changed hi ▸ probeIndex_lt k m
    · exact absurd rfl hi
    · exact absurd rfl hi

/-! ## Insertion into an `EMPTY` slot -/

/-- C17. When, for some `p` with `1 ≤ p ≤ TABLE_SIZE - 1`, the first `p - 1`
slots of the probe sequence of `k` are `FILLED` with keys other than `k` and
the slot at depth `p` is `EMPTY`, `insertEntry(k, v)` returns 2 with probe
count `p`, that slot becomes `{k, v, FILLED}`, and no other slot changes. -/
theorem empty_slot_insertion (hashTable : Table) (k v : CStr) (p : Nat)
    (hp1 : 1 ≤ p) (hpN : p ≤ TABLE_SIZE - 1)
    (hfilled : ∀ j, j < p - 1 →
      (hashTable (probeIndex k j)).status = .FILLED ∧
      (hashTable (probeIndex k j)).word ≠ some k)
    (hempty : (hashTable (probeIndex k (p - 1))).status = .EMPTY) :
    ∃ r, insertEntry hashTable k v = some r ∧ r.ret = 2 ∧ r.probeCount = p ∧
      r.hashTable (probeIndex k (p - 1)) = newEntry k v ∧
      ∀ i, i ≠ probeIndex k (p - 1) → r.hashTable i = hashTable i := by
  have hpass : ∀ j, j < p - 1 → Passes hashTable k j := by
    intro j hj
    obtain ⟨hs, hw⟩ := hfilled j hj
    exact ⟨by rw [hs]; decide, fun hm => hw hm.2⟩
  have hnd : ∀ j, j < p - 1 → (hashTable (probeIndex k j)).status ≠ .DELETED := by
    intro j hj
    rw [(hfilled j hj).1]; decide
  have h := @insertEntry_fresh hashTable k v (p - 1) (by omega) hpass hnd hempty
  have hp : p - 1 + 1 = p := by omega
  rw [hp] at h
  exact ⟨_, h, rfl, rfl, setSlot_same _ _ _, fun i hi => setSlot_other _ _ hi⟩

/-- C17 for `epec` on the table holding `cat`: the first slot of its probe
sequence holds `cat`, the second is `EMPTY`, the probe count is 2. -/
theorem empty_slot_insertion_witness :
    probeIndex epec 0 = probeIndex cat 0 ∧
    ∃ r, insertEntry catTable epec gato = some r ∧ r.ret = 2 ∧ r.probeCount = 2 ∧
      r.hashTable (probeIndex epec (2 - 1)) = newEntry epec gato ∧
      ∀ i, i ≠ probeIndex epec (2 - 1) → r.hashTable i = catTable i :=
  ⟨by decide,
    empty_slot_insertion catTable epec gato 2 (by decide) (by decide) (by decide) (by decide)⟩

/-! ## Delete walks like search -/

/-- C18. On the same table and key, `deleteEntry` returns 1 exactly when
`searchEntry` returns 1, it returns 0 exactly when `searchEntry` returns 0,
and the two report the same probe count. -/
theorem delete_like_search (hashTable : Table) (k : CStr) (rs : SearchResult) (rd : OpResult)
    (hs : searchEntry hashTable k = some rs) (hd : deleteEntry hashTable k = some rd) :
    (rd.ret = 1 ↔ rs.ret = 1) ∧ (rd.ret = 0 ↔ rs.ret = 0) ∧
    rd.probeCount = rs.probeCount := by
  obtain ⟨m, hstop⟩ := exists_firstStop hashTable k 10
  rw [searchEntry_of_firstStop hstop] at hs
  rw [deleteEntry_of_firstStop hstop] at hd
  have hs' := (Option.some.inj hs).symm
  have hd' := (Option.some.inj hd).symm
  subst hs' hd'
  cases lookupStop hashTable k 10 m with
  | hit index probes => simp [searchFinish, deleteFinish]
  | left probes => simp [searchFinish, deleteFinish]

/-- C18 for `dog` on the table holding `cat` and `dog`. -/
theorem delete_like_search_witness :
    searchEntry catDogTable dog = some ⟨1, some perro, 1⟩ ∧
    deleteEntry catDogTable dog
      = some ⟨1, 1, setSlot catDogTable (probeIndex dog 0) deletedEntry⟩ ∧
    ((1 : Nat) = 1 ↔ (1 : Nat) = 1) ∧ ((1 : Nat) = 0 ↔ (1 : Nat) = 0) ∧ (1 : Nat) = 1 :=
  have hs : searchEntry catDogTable dog = some ⟨1, some perro, 1⟩ := by decide
  ⟨hs, deleteEntry_catDog_dog,
    delete_like_search catDogTable dog ⟨1, some perro, 1⟩
      ⟨1, 1, setSlot catDogTable (probeIndex dog 0) deletedEntry⟩ hs deleteEntry_catDog_dog⟩

/-! ## Slot lifecycle -/

theorem insertEntry_status {hashTable : Table} {k v : CStr} {r : OpResult}
    (h : insertEntry hashTable k v = some r) (i : Nat) :
    (r.hashTable i).status = (hashTable i).status ∨
    ((hashTable i).status = .EMPTY ∧ (r.hashTable i).status = .FILLED) ∨
    ((hashTable i).status = .DELETED ∧ (r.hashTable i).status = .FILLED) := by
  rcases insertEntry_cases h with ⟨m, _, _, _, rfl⟩ | ⟨m, _, _, _, he, rfl⟩ |
    ⟨d, m, _, _, _, _, hdel, _, rfl⟩ | ⟨_, _, rfl⟩
  · exact Or.inl (status_setSlot_merged _ _ _ _)
  · by_cases hi : i = probeIndex k m
    · subst hi
      exact Or.inr (Or.inl ⟨he, by show (setSlot hashTable _ _ _).status = _; rw [setSlot_same]; rfl⟩)
    · exact Or.inl (by show (setSlot hashTable _ _ _).status = _; rw [setSlot_other _ _ hi])
  · by_cases hi : i = probeIndex k d
    · subst hi
      exact Or.inr (Or.inr ⟨hdel, by show (setSlot hashTable _ _ _).status = _; rw [setSlot_same]; rfl⟩)
    · exact Or.inl (by show (setSlot hashTable _ _ _).status = _; rw [setSlot_other _ _ hi])
  · exact Or.inl rfl

theorem deleteEntry_status {hashTable : Table} {k : CStr} {r : OpResult}
    (h : deleteEntry hashTable k = some r) (i : Nat) :
    (r.hashTable i).status = (hashTable i).status ∨
    ((hashTable i).status = .FILLED ∧ (r.hashTable i).status = .DELETED) := by
  rcases deleteEntry_cases h with ⟨m, _, _, hmatch, rfl⟩ | ⟨m, _, _, _, rfl⟩ | ⟨_, rfl⟩
  · by_cases hi : i = probeIndex k m
    · subst hi
      exact Or.inr ⟨hmatch.1, by show (setSlot hashTable _ _ _).status = _; rw [setSlot_same]; rfl⟩
    · exact Or.inl (by show (setSlot hashTable _ _ _).status = _; rw [setSlot_other _ _ hi])
  · exact Or.inl rfl
  · exact Or.inl rfl

theorem reachableFrom_status {hashTable hashTable1 : Table}
    (h : ReachableFrom hashTable hashTable1) (i : Nat)
    (hne : (hashTable i).status ≠ .EMPTY) : (hashTable1 i).status ≠ .EMPTY := by
  induction h with
  | start => exact hne
  | insert word translation _ hr ih =>
    rcases insertEntry_status hr i with h1 | ⟨_, h2⟩ | ⟨_, h2⟩
    · rw [h1]; exact ih
    · rw [h2]; decide
    · rw [h2]; decide
  | delete word _ hr ih =>
    rcases deleteEntry_status hr i with h1 | ⟨_, h2⟩
    · rw [h1]; exact ih
    · rw [h2]; decide

/-- C19. In one call of `insertEntry` a slot keeps its status (a merge leaves
a `FILLED` slot `FILLED`) or goes from `EMPTY` to `FILLED` or from `DELETED`
to `FILLED`; in one call of `deleteEntry` a slot keeps its status or goes from
`FILLED` to `DELETED`.  So a slot that is not `EMPTY` is not `EMPTY` in any
table the program comes to later. -/
theorem slot_lifecycle (hashTable : Table) :
    (∀ k v r, insertEntry hashTable k v = some r → ∀ i,
      (r.hashTable i).status = (hashTable i).status ∨
      ((hashTable i).status = .EMPTY ∧ (r.hashTable i).status = .FILLED) ∨
      ((hashTable i).status = .DELETED ∧ (r.hashTable i).status = .FILLED)) ∧
    (∀ k r, deleteEntry hashTable k = some r → ∀ i,
      (r.hashTable i).status = (hashTable i).status ∨
      ((hashTable i).status = .FILLED ∧ (r.hashTable i).status = .DELETED)) ∧
    (∀ hashTable1, ReachableFrom hashTable hashTable1 → ∀ i,
      (hashTable i).status ≠ .EMPTY → (hashTable1 i).status ≠ .EMPTY) :=
  ⟨fun _ _ _ h i => insertEntry_status h i, fun _ _ h i => deleteEntry_status h i,
    fun _ h i hne => reachableFrom_status h i hne⟩

theorem deleteEntry_cat_cat :
    deleteEntry catTable cat = some ⟨1, 1, tombstoneTable⟩ :=
  deleteEntry_hit (by decide) (fun j hj => absurd hj (Nat.not_lt_zero j)) (by decide)

/-- C19 for the slot of `cat`, from the table holding `cat` to the table in
which `cat` was deleted. -/
theorem slot_lifecycle_witness :
    ReachableFrom catTable tombstoneTable ∧
    (catTable (probeIndex cat 0)).status = .FILLED ∧
    (tombstoneTable (probeIndex cat 0)).status = .DELETED ∧
    (tombstoneTable (probeIndex cat 0)).status ≠ .EMPTY :=
  have hreach : ReachableFrom catTable tombstoneTable :=
    ReachableFrom.delete cat ReachableFrom.start deleteEntry_cat_cat
  ⟨hreach, by decide, by decide,
    (slot_lifecycle catTable).2.2 tombstoneTable hreach (probeIndex cat 0) (by decide)⟩

/-! ## Placement of the keys -/

/-- C20. In every reachable table, a slot `FILLED` with `k` is the slot at
some depth `d`, `1 ≤ d ≤ TABLE_SIZE - 1`, of the probe sequence of `k`, and
no slot at a smaller depth is `EMPTY` or holds `k`; so `insertEntry(k, v)`
returns 1 with probe count `d` and merges into that slot, changing no other,
and `searchEntry(k)` returns 1 with probe count `d` and the translation of
that slot when `d ≤ 10`. -/
theorem placement_invariant (hashTable : Table) (h : Reachable hashTable) (i : Nat) (k : CStr)
    (hs : (hashTable i).status = .FILLED) (hw : (hashTable i).word = some k) :
    ∃ d, 1 ≤ d ∧ d ≤ TABLE_SIZE - 1 ∧ probeIndex k (d - 1) = i ∧
      (∀ j, j < d - 1 →
        (hashTable (probeIndex k j)).status ≠ .EMPTY ∧
        ¬ slotMatches (hashTable (probeIndex k j)) k) ∧
      (∀ v, insertEntry hashTable k v
        = some ⟨1, d, setSlot hashTable i (mergedEntry (hashTable i) v)⟩) ∧
      (d ≤ 10 → searchEntry hashTable k = some ⟨1, (hashTable i).translation, d⟩) := by
  have hinv := reachable_inv h
  obtain ⟨d, hd, hidx, hne⟩ := hinv.placement i k ⟨hs, hw⟩
  have hmatch : slotMatches (hashTable (probeIndex k d)) k := hidx ▸ ⟨hs, hw⟩
  have hpass : ∀ j, j < d → Passes hashTable k j := by
    intro j hj
    refine ⟨hne j hj, fun hm => ?_⟩
    have heq := hinv.unique _ _ k hm hmatch
    have := probeIndex_inj k (i := j) (j := d) (by omega) (by omega) heq
    omega
  have hd1 : d + 1 - 1 = d := by omega
  refine ⟨d + 1, by omega, by omega, by rw [hd1]; exact hidx, by rw [hd1]; exact hpass, ?_, ?_⟩
  · intro v
    have hins := insertEntry_update v hd hpass hmatch
    rw [hidx] at hins
    exact hins
  · intro hd10
    have hsearch := @searchEntry_hit hashTable k d (by omega) hpass hmatch
    rw [hidx] at hsearch
    exact hsearch

/-- C20 for the slot of `dog` in the table holding `cat` and `dog`. -/
theorem placement_invariant_witness :
    Reachable catDogTable ∧
    ∃ d, 1 ≤ d ∧ d ≤ TABLE_SIZE - 1 ∧ probeIndex dog (d - 1) = probeIndex dog 0 ∧
      (∀ j, j < d - 1 →
        (catDogTable (probeIndex dog j)).status ≠ .EMPTY ∧
        ¬ slotMatches (catDogTable (probeIndex dog j)) dog) ∧
      (∀ v, insertEntry catDogTable dog v
        = some ⟨1, d, setSlot catDogTable (probeIndex dog 0)
            (mergedEntry (catDogTable (probeIndex dog 0)) v)⟩) ∧
      (d ≤ 10 → searchEntry catDogTable dog
        = some ⟨1, (catDogTable (probeIndex dog 0)).translation, d⟩) :=
  ⟨catDogTable_reachable,
    placement_invariant catDogTable catDogTable_reachable (probeIndex dog 0) dog
      (by decide) (by decide)⟩

end HashDict
